import Mathlib

/-!
Verification of the retrieval-and-persistence core of `get_redmine_issues`.

The Lean definitions below are a shallow embedding of the Python sources:
  - `redmine_client.py`  (RedmineClient: URL construction, get_issue,
    download_attachment, get_attachments_from_issue)
  - `file_manager.py`    (FileManager: paths, save_issue_json, file_exists)
  - `history_manager.py` (HistoryManager: read_history_log,
    list_available_log_dates)
  - `get_redmine_issues.py` (process_issue, the batch loop of main)

JSON documents are modelled by an inductive `Json` type (numbers as `Int`;
the model has no floating-point numbers).  Python strings are modelled by
Lean `String` (a list of unicode scalar values).  All effects (HTTP
responses, the filesystem, download outcomes) are supplied by explicit
oracle values, so every modelled operation is a pure, executable function.
-/

/-! ## Generic list/string helpers -/

/-- Insert `x` into `l` before the first element `y` with `le x y`.
This is the insertion step of a stable insertion sort, used to model
Python's `sorted`. -/
def insertBy (le : α → α → Bool) (x : α) : List α → List α
  | [] => [x]
  | y :: ys => if le x y then x :: y :: ys else y :: insertBy le x ys

/-- Stable insertion sort with a boolean comparator, modelling Python's
`sorted` builtin (which produces an ascending stable ordering). -/
def sortBy (le : α → α → Bool) : List α → List α
  | [] => []
  | x :: xs => insertBy le x (sortBy le xs)

theorem insertBy_perm (le : α → α → Bool) (x : α) (l : List α) :
    (insertBy le x l).Perm (x :: l) := by
  induction l with
  | nil => simp [insertBy]
  | cons y ys ih =>
    simp only [insertBy]
    split
    · exact List.Perm.refl _
    · exact ((ih.cons y).trans (List.Perm.swap x y ys))

theorem sortBy_perm (le : α → α → Bool) (l : List α) :
    (sortBy le l).Perm l := by
  induction l with
  | nil => simp [sortBy]
  | cons x xs ih =>
    exact (insertBy_perm le x (sortBy le xs)).trans (ih.cons x)

theorem insertBy_pairwise (le : α → α → Bool)
    (htot : ∀ a b, le a b = false → le b a = true)
    (htrans : ∀ a b c, le a b = true → le b c = true → le a c = true)
    (x : α) (l : List α)
    (hl : l.Pairwise (fun a b => le a b = true)) :
    (insertBy le x l).Pairwise (fun a b => le a b = true) := by
  induction l with
  | nil => simp [insertBy]
  | cons y ys ih =>
    rcases hl with _ | ⟨hy, hys⟩
    simp only [insertBy]
    by_cases hxy : le x y = true
    · simp only [hxy, if_true]
      refine List.Pairwise.cons ?_ (List.Pairwise.cons hy hys)
      intro b hb
      rcases List.mem_cons.mp hb with rfl | hb
      · exact hxy
      · exact htrans x y b hxy (hy b hb)
    · simp only [hxy, if_false]
      refine List.Pairwise.cons ?_ (ih hys)
      intro b hb
      have hmem := (insertBy_perm le x ys).mem_iff.mp hb
      rcases List.mem_cons.mp hmem with rfl | hb
      · exact htot _ _ (Bool.eq_false_iff.mpr hxy)
      · exact hy b hb

theorem sortBy_pairwise (le : α → α → Bool)
    (htot : ∀ a b, le a b = false → le b a = true)
    (htrans : ∀ a b c, le a b = true → le b c = true → le a c = true)
    (l : List α) :
    (sortBy le l).Pairwise (fun a b => le a b = true) := by
  induction l with
  | nil => simp [sortBy]
  | cons x xs ih => exact insertBy_pairwise le htot htrans x _ ih

/-- Inserting into an already-sorted list whose head is above `x` keeps the
list unchanged below; sorting a sorted list is the identity. -/
theorem sortBy_of_pairwise (le : α → α → Bool)
    (l : List α) (hl : l.Pairwise (fun a b => le a b = true)) :
    sortBy le l = l := by
  induction l with
  | nil => rfl
  | cons x xs ih =>
    rcases hl with _ | ⟨hx, hxs⟩
    simp only [sortBy, ih hxs]
    cases xs with
    | nil => rfl
    | cons y ys => simp [insertBy, hx y (by simp)]

/-! ## Lexicographic order on strings (Python string comparison) -/

/-- Lexicographic comparison of character lists by unicode code point,
modelling Python's `<=` on `str` (used by `sorted`). -/
def lexLe : List Char → List Char → Bool
  | [], _ => true
  | _ :: _, [] => false
  | c :: cs, d :: ds => if c < d then true else if c = d then lexLe cs ds else false

/-- Python string comparison, on the model's `String`. -/
def strLe (s t : String) : Bool := lexLe s.data t.data

theorem lexLe_total : ∀ a b : List Char, lexLe a b = false → lexLe b a = true := by
  intro a
  induction a with
  | nil => intro b h; simp [lexLe] at h
  | cons c cs ih =>
    intro b h
    cases b with
    | nil => simp [lexLe]
    | cons d ds =>
      simp only [lexLe] at h ⊢
      by_cases hcd : c < d
      · simp [hcd] at h
      · simp only [hcd, if_false] at h
        by_cases heq : c = d
        · simp only [heq, if_true] at h
          simp [heq, lt_irrefl, ih ds h]
        · have hdc : d < c := by
            rcases lt_trichotomy c d with h1 | h1 | h1
            · exact absurd h1 hcd
            · exact absurd h1 heq
            · exact h1
          simp [hdc]

theorem lexLe_trans : ∀ a b c : List Char,
    lexLe a b = true → lexLe b c = true → lexLe a c = true := by
  intro a
  induction a with
  | nil => intro b c _ _; rfl
  | cons x xs ih =>
    intro b c hab hbc
    cases b with
    | nil => simp [lexLe] at hab
    | cons y ys =>
      cases c with
      | nil => simp [lexLe] at hbc
      | cons z zs =>
        simp only [lexLe] at hab hbc ⊢
        by_cases hxy : x < y
        · by_cases hyz : y < z
          · simp [lt_trans hxy hyz]
          · simp only [hyz, if_false] at hbc
            by_cases hyzeq : y = z
            · subst hyzeq; simp [hxy]
            · simp [hyzeq] at hbc
        · simp only [hxy, if_false] at hab
          by_cases hxyeq : x = y
          · subst hxyeq
            simp only [if_true] at hab
            by_cases hyz : x < z
            · simp [hyz]
            · simp only [hyz, if_false] at hbc ⊢
              by_cases hyzeq : x = z
              · subst hyzeq
                simp only [if_true] at hbc ⊢
                exact ih ys zs hab hbc
              · simp [hyzeq] at hbc
          · simp [hxyeq] at hab


theorem lexLe_antisymm : ∀ a b : List Char,
    lexLe a b = true → lexLe b a = true → a = b := by
  intro a
  induction a with
  | nil =>
    intro b _ hba
    cases b with
    | nil => rfl
    | cons d ds => simp [lexLe] at hba
  | cons c cs ih =>
    intro b hab hba
    cases b with
    | nil => simp [lexLe] at hab
    | cons d ds =>
      simp only [lexLe] at hab hba
      by_cases hcd : c < d
      · have : ¬ d < c := lt_asymm hcd
        have : ¬ d = c := fun h => absurd (h ▸ hcd) (lt_irrefl c)
        simp_all
      · by_cases hceq : c = d
        · subst hceq
          simp only [lt_irrefl, if_false, if_true] at hab hba
          exact congrArg (c :: ·) (ih ds hab hba)
        · simp [hcd, hceq] at hab

/-- Remove every trailing occurrence of `ch` from `s`, modelling Python's
`str.rstrip` with a single-character argument (as used with `'/'` in
`RedmineClient.__init__` and `'\n'` in `HistoryManager.read_history_log`). -/
def rstrip (ch : Char) (s : String) : String :=
  ⟨(s.data.reverse.dropWhile (fun c => c == ch)).reverse⟩

/-! ## RedmineClient URL construction (redmine_client.py)

`RedmineClient.__init__` (line 35) stores `base_url.rstrip('/')`; the three
request URLs are built from that stored value:
  - `get_issue` (line 59): `f"{base_url}/issues/{issue_id}.json"`
  - `download_attachment` (line 124): `f"{base_url}/attachments/{attachment_id}"`
  - `test_connection` (line 107): `f"{base_url}/projects.json"`
-/

/-- URL requested by `RedmineClient.get_issue`. -/
def issueUrl (base : String) (issueId : Nat) : String :=
  rstrip '/' base ++ "/issues/" ++ toString issueId ++ ".json"

/-- URL requested by `RedmineClient.download_attachment`. -/
def attachmentUrl (base : String) (attachmentId : Nat) : String :=
  rstrip '/' base ++ "/attachments/" ++ toString attachmentId

/-- URL requested by `RedmineClient.test_connection` (connectivity probe). -/
def projectsUrl (base : String) : String :=
  rstrip '/' base ++ "/projects.json"

theorem data_append (s t : String) : (s ++ t).data = s.data ++ t.data := by
  cases s; cases t; rfl

theorem dropWhile_replicate_append (p : Char → Bool) (c : Char) (hp : p c = true)
    (n : Nat) (l : List Char) :
    (List.replicate n c ++ l).dropWhile p = l.dropWhile p := by
  induction n with
  | zero => rfl
  | succ m ih => simp [List.replicate_succ, List.dropWhile_cons, hp, ih]

theorem rstrip_append_replicate (ch : Char) (u : String) (n : Nat) :
    rstrip ch (u ++ ⟨List.replicate n ch⟩) = rstrip ch u := by
  unfold rstrip
  rw [data_append]
  show String.mk ((u.data ++ List.replicate n ch).reverse.dropWhile _).reverse = _
  rw [List.reverse_append, List.reverse_replicate,
    dropWhile_replicate_append (fun c => c == ch) ch (by simp) n]

/-- C9: the client normalizes the endpoint base address by stripping
trailing slashes at construction, so the issue-fetch, attachment-download
and connectivity-probe URLs built from a base URL `u` and from `u` followed
by any number of trailing `'/'` characters are character-identical. -/
theorem trailing_slash_insensitive (u : String) (n : Nat)
    (issueId attachmentId : Nat) :
    issueUrl (u ++ ⟨List.replicate n '/'⟩) issueId = issueUrl u issueId ∧
    attachmentUrl (u ++ ⟨List.replicate n '/'⟩) attachmentId
      = attachmentUrl u attachmentId ∧
    projectsUrl (u ++ ⟨List.replicate n '/'⟩) = projectsUrl u := by
  refine ⟨?_, ?_, ?_⟩ <;>
    simp [issueUrl, attachmentUrl, projectsUrl, rstrip_append_replicate]

/-! ## HistoryManager.list_available_log_dates (history_manager.py 136-159)

The directory listing is the oracle: `none` models a missing history
directory (`self.history_dir.exists()` false), `some names` models the
names of its entries.  `glob("*.log")` keeps exactly the names ending in
`".log"`; `Path.stem` drops the final extension. -/

/-- Python `pathlib.PurePath.stem`: the final path component without its
last suffix, where a suffix starts at the last `'.'` only if that dot is
neither the first nor the last character. -/
def pyStem (s : String) : String :=
  let cs := s.data
  let sufLen := (cs.reverse.takeWhile (fun c => !(c == '.'))).length
  if 1 ≤ sufLen ∧ sufLen + 2 ≤ cs.length then ⟨cs.take (cs.length - 1 - sufLen)⟩
  else s

/-- Whether a directory-entry name matches the glob pattern `"*.log"`
(fnmatch: `*` matches any — possibly empty — sequence). -/
def matchesLogGlob (s : String) : Bool := ".log".data.isSuffixOf s.data

/-- Python `str.isdigit` restricted to ASCII decimal digits (the spec's
"8-digit numeric stem"; non-ASCII digit code points are out of scope of
this model). -/
def isDigitStr (s : String) : Bool := s.data.all Char.isDigit

/-- HistoryManager.list_available_log_dates: filter the directory listing
by the `*.log` glob, keep stems that are 8-digit strings, sort ascending.
A missing directory yields `[]`. -/
def list_available_log_dates (dirListing : Option (List String)) : List String :=
  match dirListing with
  | none => []
  | some names =>
    sortBy strLe
      (((names.filter matchesLogGlob).map pyStem).filter
        (fun d => d.data.length == 8 && isDigitStr d))

/-- C8: listAvailableDates returns the ascending-sorted date strings from
the 8-digit-stem `.log` files of the history directory, ignores other
files, returns `[]` for a missing directory, and on a directory holding
`20240101.log`, `20240102.log` and `notes.txt` returns exactly
`["20240101", "20240102"]`. -/
theorem list_available_log_dates_spec :
    list_available_log_dates none = [] ∧
    (∀ names : List String,
      (list_available_log_dates (some names)).Pairwise
        (fun a b => strLe a b = true) ∧
      (list_available_log_dates (some names)).Perm
        (((names.filter matchesLogGlob).map pyStem).filter
          (fun d => d.data.length == 8 && isDigitStr d))) ∧
    list_available_log_dates
        (some ["20240101.log", "20240102.log", "notes.txt"])
      = ["20240101", "20240102"] := by
  refine ⟨rfl, ?_, by decide⟩
  intro names
  constructor
  · exact sortBy_pairwise strLe
      (fun a b h => lexLe_total a.data b.data h)
      (fun a b c h1 h2 => lexLe_trans a.data b.data c.data h1 h2)
      _
  · exact sortBy_perm strLe _

/-! ## HistoryManager.read_history_log (history_manager.py 113-134)

`read_history_log` returns `[]` when the log file does not exist, returns
`[]` when opening/reading raises (the bare `except Exception` branch), and
otherwise returns `[line.rstrip('\n') for line in f.readlines()]`.  The
oracle says which of the three cases applies; `content s` carries the
decoded text of the file (after universal-newline translation). -/

/-- One step of Python `readlines`: split after every `'\n'`, keeping the
newline at the end of each produced line; `acc` is the reversed current
line. -/
def splitKeepAux : List Char → List Char → List String
  | [], acc => if acc.isEmpty then [] else [⟨acc.reverse⟩]
  | c :: rest, acc =>
    if c = '\n' then ⟨(c :: acc).reverse⟩ :: splitKeepAux rest []
    else splitKeepAux rest (c :: acc)

/-- Python `f.readlines()` on decoded text. -/
def pyReadlines (s : String) : List String := splitKeepAux s.data []

/-- Outcome of attempting to read the day's history log file. -/
inductive ReadOutcome where
  | missing
  | readError
  | content (s : String)

/-- HistoryManager.read_history_log: missing file ⟶ `[]`; a raised read
error ⟶ `[]` (swallowed); otherwise each line with its trailing newline
stripped, in file order. -/
def read_history_log : ReadOutcome → List String
  | .missing => []
  | .readError => []
  | .content s => (pyReadlines s).map (rstrip '\n')

/-- Concatenation of the character data of a list of strings. -/
def concatData (ls : List String) : List Char :=
  ls.foldr (fun s acc => s.data ++ acc) []

theorem splitKeepAux_concat (cs : List Char) :
    ∀ acc, concatData (splitKeepAux cs acc) = acc.reverse ++ cs := by
  induction cs with
  | nil =>
    intro acc
    by_cases h : acc.isEmpty
    · simp_all [splitKeepAux, concatData, List.isEmpty_iff]
    · simp [splitKeepAux, h, concatData]
  | cons c rest ih =>
    intro acc
    by_cases h : c = '\n'
    · subst h
      simp only [splitKeepAux, if_pos rfl]
      show ('\n' :: acc).reverse ++ concatData (splitKeepAux rest []) = _
      rw [ih []]
      simp
    · simp only [splitKeepAux, h, if_false]
      rw [ih (c :: acc)]
      simp

theorem splitKeepAux_shape (cs : List Char) :
    ∀ acc, (∀ c ∈ acc, c ≠ '\n') →
      ∀ line ∈ splitKeepAux cs acc,
        ∃ w, (∀ c ∈ w, c ≠ '\n') ∧
          (line.data = w ++ ['\n'] ∨ line.data = w) := by
  induction cs with
  | nil =>
    intro acc hacc line hline
    by_cases h : acc.isEmpty
    · simp [splitKeepAux, h] at hline
    · simp [splitKeepAux, h] at hline
      subst hline
      refine ⟨acc.reverse, ?_, Or.inr rfl⟩
      intro c hc
      exact hacc c (List.mem_reverse.mp hc)
  | cons c rest ih =>
    intro acc hacc line hline
    by_cases h : c = '\n'
    · simp only [splitKeepAux, h, if_true, List.mem_cons] at hline
      rcases hline with rfl | hline
      · refine ⟨acc.reverse, ?_, Or.inl ?_⟩
        · intro x hx; exact hacc x (List.mem_reverse.mp hx)
        · simp
      · exact ih [] (by simp) line hline
    · simp only [splitKeepAux, h, if_false] at hline
      refine ih (c :: acc) ?_ line hline
      intro x hx
      rcases List.mem_cons.mp hx with rfl | hx
      · exact h
      · exact hacc x hx

theorem dropWhile_of_no_match (p : Char → Bool) (l : List Char)
    (h : ∀ c ∈ l, p c = false) : l.dropWhile p = l := by
  cases l with
  | nil => rfl
  | cons c rest => simp [List.dropWhile_cons, h c (by simp)]

/-- Stripping trailing newlines from a line that contains no interior
newline and at most one trailing newline just removes that newline. -/
theorem rstrip_line (w : List Char) (hw : ∀ c ∈ w, c ≠ '\n') :
    (rstrip '\n' ⟨w ++ ['\n']⟩).data = w ∧ (rstrip '\n' ⟨w⟩).data = w := by
  have hno : ∀ c ∈ w.reverse, (c == '\n') = false := by
    intro c hc
    simpa using hw c (List.mem_reverse.mp hc)
  constructor
  · show ((w ++ ['\n']).reverse.dropWhile (fun c => c == '\n')).reverse = w
    rw [List.reverse_append]
    simp only [List.reverse_singleton, List.singleton_append,
      List.dropWhile_cons]
    simp only [beq_self_eq_true, if_true]
    rw [dropWhile_of_no_match _ _ hno, List.reverse_reverse]
  · show (w.reverse.dropWhile (fun c => c == '\n')).reverse = w
    rw [dropWhile_of_no_match _ _ hno, List.reverse_reverse]

/-- C10: read_history_log is total and never raises: it returns `[]` when
the file is missing and also when reading fails; otherwise it returns, in
file order, exactly the file's lines with the trailing newline removed
(`readlines` splits the content losslessly after each newline, and the
returned entries contain no newline). -/
theorem read_history_log_spec :
    read_history_log .missing = [] ∧
    read_history_log .readError = [] ∧
    ∀ s : String,
      read_history_log (.content s) = (pyReadlines s).map (rstrip '\n') ∧
      concatData (pyReadlines s) = s.data ∧
      ∀ line ∈ pyReadlines s,
        (∀ c ∈ (rstrip '\n' line).data, c ≠ '\n') ∧
        ((rstrip '\n' line).data ++ ['\n'] = line.data ∨
          (rstrip '\n' line).data = line.data) := by
  refine ⟨rfl, rfl, ?_⟩
  intro s
  refine ⟨rfl, by simpa using splitKeepAux_concat s.data [], ?_⟩
  intro line hline
  obtain ⟨w, hw, hcase⟩ :=
    splitKeepAux_shape s.data [] (by simp) line hline
  rcases hcase with h | h
  · have := (rstrip_line w hw).1
    have hld : line = ⟨w ++ ['\n']⟩ := by cases line; simp_all
    subst hld
    rw [this]
    exact ⟨hw, Or.inl (by simp)⟩
  · have := (rstrip_line w hw).2
    have hld : line = ⟨w⟩ := by cases line; simp_all
    subst hld
    rw [this]
    exact ⟨hw, Or.inr (by simp)⟩

/-! ## The JSON data model

`Json` models the Python values that `response.json()` can produce
(numbers restricted to integers; the model has no floats), plus one extra
constructor `pyObj` standing for an arbitrary Python object that the
`json` module cannot serialize (it can occur inside an `issue_data` dict
only if the caller builds one by hand; it is what makes `json.dump` raise
`TypeError`).  Objects are association lists in insertion order, the order
Python dicts preserve. -/
inductive Json where
  | null
  | bool (b : Bool)
  | num (n : Int)
  | str (s : String)
  | arr (xs : List Json)
  | obj (kvs : List (String × Json))
  | pyObj

/-- Python truthiness (`if attachment_id:`) on modelled values: `None`,
`False`, `0`, `""`, `[]` and the empty dict are falsy; a generic object is
truthy. -/
def jsonTruthy : Json → Bool
  | .null => false
  | .bool b => b
  | .num n => n != 0
  | .str s => !s.data.isEmpty
  | .arr xs => !xs.isEmpty
  | .obj kvs => !kvs.isEmpty
  | .pyObj => true

/-- Python `dict.get(key)` (first binding; modelled dicts have unique
keys). Returns `Json.null` (`None`) when the key is absent. -/
def dictGet (kvs : List (String × Json)) (key : String) : Json :=
  match kvs.find? (fun kv => kv.1 == key) with
  | some kv => kv.2
  | none => .null

/-- Whether the key is present (`'id' in attachment` style tests are not
used on attachment dicts, but `dict.get` with a default is). -/
def dictHas (kvs : List (String × Json)) (key : String) : Bool :=
  (kvs.find? (fun kv => kv.1 == key)).isSome

/-! ## Decimal rendering of integers (Python `str(int)` / json int output) -/

/-- The ASCII digit character for `d < 10`. -/
def digitChar (d : Nat) : Char := Char.ofNat (48 + d)

/-- Decimal digits of `n`, most significant first; the first argument is
recursion fuel (any fuel `≥ n` suffices, and `natChars` passes `n + 1`). -/
def natDigitsAux : Nat → Nat → List Char
  | 0, _ => []
  | fuel + 1, n => if n = 0 then [] else natDigitsAux fuel (n / 10) ++ [digitChar (n % 10)]

/-- Decimal rendering of a natural number. -/
def natChars (n : Nat) : List Char := if n = 0 then ['0'] else natDigitsAux (n + 1) n

/-- Decimal rendering of an integer (Python `str`/`repr` of `int`). -/
def intChars : Int → List Char
  | .ofNat m => natChars m
  | .negSucc m => '-' :: natChars (m + 1)

/-! ## JSON string escaping (json.encoder, `ensure_ascii=False`)

With `ensure_ascii=False` the encoder escapes exactly `\`, `"` and the
control characters below `U+0020`; the latter use the short forms
`\b \t \n \f \r` when available and `\u00xx` otherwise.  Every other
character is emitted verbatim. -/

/-- Lowercase hex digit for `d < 16`. -/
def hexDigit (d : Nat) : Char :=
  if d < 10 then Char.ofNat (48 + d) else Char.ofNat (87 + d)

/-- Escape one character as the json encoder does. -/
def escChar (c : Char) : List Char :=
  if c = '\\' then ['\\', '\\']
  else if c = '"' then ['\\', '"']
  else if c = '\x08' then ['\\', 'b']
  else if c = '\x09' then ['\\', 't']
  else if c = '\x0a' then ['\\', 'n']
  else if c = '\x0c' then ['\\', 'f']
  else if c = '\x0d' then ['\\', 'r']
  else if c.toNat < 32 then
    ['\\', 'u', '0', '0', hexDigit (c.toNat / 16), hexDigit (c.toNat % 16)]
  else [c]

/-- Escape a whole string body. -/
def escChars : List Char → List Char
  | [] => []
  | c :: cs => escChar c ++ escChars cs

/-- A double-quoted JSON string literal. -/
def qstr (s : String) : List Char := '"' :: escChars s.data ++ ['"']

/-! ## json.dump with `indent=2`, `sort_keys=True`, `ensure_ascii=False`
(file_manager.py 66-73)

`dumpVal ind j` returns the characters `json.dump` writes for `j` at
nesting depth `ind` together with a success flag; on an unserializable
value the flag is `false` and the characters are exactly the prefix the
incremental encoder has already emitted when `TypeError` is raised. -/

/-- Two-space indentation at nesting depth `n`. -/
def spc (n : Nat) : List Char := List.replicate (2 * n) ' '

/-- Sort an association list by key, as `sort_keys=True` does (Python dict
keys are unique, so ties never arise for modelled dicts). -/
def sortEntries (l : List (String × α)) : List (String × α) :=
  sortBy (fun a b => strLe a.1 b.1) l

/-- Join the pre-rendered elements after the first of a non-empty JSON
array: each is preceded by `",\n" ++ indent`; rendering stops at the first
failed element, keeping the prefix written so far. -/
def joinArr (ind : Nat) : List (List Char × Bool) → List Char × Bool
  | [] => ([], true)
  | (s, ok) :: ps =>
    let piece := ',' :: '\n' :: (spc ind ++ s)
    if ok then
      let (t, ok2) := joinArr ind ps
      (piece ++ t, ok2)
    else (piece, false)

/-- Assemble a JSON array from its pre-rendered elements. -/
def dumpArrAssemble (ind : Nat) : List (List Char × Bool) → List Char × Bool
  | [] => ("[]".data, true)
  | (s, ok) :: ps =>
    let head := '[' :: '\n' :: (spc (ind + 1) ++ s)
    if ok then
      let (t, ok2) := joinArr (ind + 1) ps
      if ok2 then (head ++ t ++ '\n' :: (spc ind ++ [']']), true)
      else (head ++ t, false)
    else (head, false)

/-- Join the pre-rendered entries after the first of a non-empty JSON
object (`"key": value` pieces). -/
def joinObj (ind : Nat) : List (String × (List Char × Bool)) → List Char × Bool
  | [] => ([], true)
  | (k, (s, ok)) :: ps =>
    let piece := ',' :: '\n' :: (spc ind ++ qstr k ++ ':' :: ' ' :: s)
    if ok then
      let (t, ok2) := joinObj ind ps
      (piece ++ t, ok2)
    else (piece, false)

/-- Assemble a JSON object from its pre-rendered (already key-sorted)
entries. -/
def dumpObjAssemble (ind : Nat) : List (String × (List Char × Bool)) → List Char × Bool
  | [] => ("\x7b\x7d".data, true)
  | (k, (s, ok)) :: ps =>
    let head := '\x7b' :: '\n' :: (spc (ind + 1) ++ qstr k ++ ':' :: ' ' :: s)
    if ok then
      let (t, ok2) := joinObj (ind + 1) ps
      if ok2 then (head ++ t ++ '\n' :: (spc ind ++ ['\x7d']), true)
      else (head ++ t, false)
    else (head, false)

mutual

/-- Characters written by `json.dump(j, f, ensure_ascii=False, indent=2,
sort_keys=True)` at depth `ind`, with a success flag (see above). -/
def dumpVal (ind : Nat) : Json → List Char × Bool
  | .null => ("null".data, true)
  | .bool true => ("true".data, true)
  | .bool false => ("false".data, true)
  | .num n => (intChars n, true)
  | .str s => (qstr s, true)
  | .arr xs => dumpArrAssemble ind (dumpElems (ind + 1) xs)
  | .obj kvs => dumpObjAssemble ind (sortEntries (dumpEntries (ind + 1) kvs))
  | .pyObj => ([], false)

/-- Pre-render every array element. -/
def dumpElems (ind : Nat) : List Json → List (List Char × Bool)
  | [] => []
  | x :: xs => dumpVal ind x :: dumpElems ind xs

/-- Pre-render every object entry's value, keeping its key. -/
def dumpEntries (ind : Nat) : List (String × Json) → List (String × (List Char × Bool))
  | [] => []
  | (k, v) :: kvs => (k, dumpVal ind v) :: dumpEntries ind kvs

end

/-- The serialized text of a document (`json.dump` output, which ends
without a trailing newline). -/
def serialize (j : Json) : String := ⟨(dumpVal 0 j).1⟩

/-! ## Serializability (what `json.dump` accepts) -/

mutual

/-- Whether the `json` module can serialize the value (no `pyObj` inside). -/
def serializableJson : Json → Bool
  | .null => true
  | .bool _ => true
  | .num _ => true
  | .str _ => true
  | .arr xs => serializableList xs
  | .obj kvs => serializableEntries kvs
  | .pyObj => false

def serializableList : List Json → Bool
  | [] => true
  | x :: xs => serializableJson x && serializableList xs

def serializableEntries : List (String × Json) → Bool
  | [] => true
  | kv :: kvs => serializableJson kv.2 && serializableEntries kvs

end

mutual

/-- Node count of a document, used as a measure for strong induction. -/
def jsize : Json → Nat
  | .null => 1
  | .bool _ => 1
  | .num _ => 1
  | .str _ => 1
  | .arr xs => 1 + jsizeList xs
  | .obj kvs => 1 + jsizeEntries kvs
  | .pyObj => 1

def jsizeList : List Json → Nat
  | [] => 0
  | x :: xs => 1 + jsize x + jsizeList xs

def jsizeEntries : List (String × Json) → Nat
  | [] => 0
  | kv :: kvs => 1 + jsize kv.2 + jsizeEntries kvs

end

/-! ## FileManager (file_manager.py)

Paths are modelled as plain strings, joined with `'/'` as `pathlib` does.
`output_dir` is the string the `FileManager` was constructed with. -/

/-- FileManager.get_issue_file_path: `<output_dir>/issues/<id>.json`. -/
def get_issue_file_path (output_dir : String) (issue_id : Nat) : String :=
  output_dir ++ "/issues/" ++ ⟨natChars issue_id⟩ ++ ".json"

/-- FileManager.get_attachment_file_path:
`<output_dir>/attachments/<id>/<filename>`. -/
def get_attachment_file_path (output_dir : String) (issue_id : Nat)
    (filename : String) : String :=
  output_dir ++ "/attachments/" ++ ⟨natChars issue_id⟩ ++ "/" ++ filename

/-- Result of `FileManager.save_issue_json` (file_manager.py 47-80):
`saved c` means the function returned normally and the file now holds `c`;
`osError` means `open(file_path, 'w')` raised (the file is untouched) and
the function re-raised `OSError`; `valueError p` means `json.dump` raised
`TypeError`/`ValueError` after the incremental encoder had written the
prefix `p` into the already-truncated file, and the function raised
`ValueError`. -/
inductive SaveOutcome where
  | saved (content : String)
  | osError
  | valueError (partContent : String)

/-- FileManager.save_issue_json, as a function of the open-call oracle and
the document.  `open(file_path, 'w')` truncates the file; `json.dump`
then streams the serialization; a non-serializable value raises midway. -/
def save_issue_json (openOk : Bool) (issue_data : Json) : SaveOutcome :=
  if openOk then
    match dumpVal 0 issue_data with
    | (w, true) => .saved ⟨w⟩
    | (w, false) => .valueError ⟨w⟩
  else .osError

/-- Content of the issue file after a `save_issue_json` call, given its
prior content (`none` = the file did not exist). -/
def fileAfterSave (prior : Option String) : SaveOutcome → Option String
  | .saved c => some c
  | .osError => prior
  | .valueError p => some p

/-- Whether the call raised (OSError or ValueError). -/
def saveRaises : SaveOutcome → Bool
  | .saved _ => false
  | .osError => true
  | .valueError _ => true

/-! ## RedmineClient.get_issue (redmine_client.py 45-96) -/

/-- What the HTTP layer produced for a request: a response with a status
code and an optional parsed JSON body (`none` = the body is not valid
JSON), or a raised requests exception (timeout / connection error /
other request error). -/
inductive NetOutcome where
  | resp (status : Nat) (jsonBody : Option Json)
  | netFail

/-- Result of `RedmineClient.get_issue`: `notFound` models the `None`
return on HTTP 404, `ok` the parsed body, `apiError` a raised
`RedmineAPIError`. -/
inductive FetchResult where
  | notFound
  | ok (doc : Json)
  | apiError

/-- RedmineClient.get_issue: 404 ⟶ `None`; any other non-ok status
(`response.ok` is `status < 400`) ⟶ `RedmineAPIError`; malformed JSON
body ⟶ `RedmineAPIError`; requests exceptions ⟶ `RedmineAPIError`. -/
def get_issue (r : NetOutcome) : FetchResult :=
  match r with
  | .netFail => .apiError
  | .resp status body =>
    if status == 404 then .notFound
    else if 400 ≤ status then .apiError
    else
      match body with
      | some j => .ok j
      | none => .apiError

/-! ## RedmineClient.get_attachments_from_issue (redmine_client.py 160-182)

The Python code runs `'issue' in issue_data`, `issue_data['issue']`,
`'attachments' in x`, `x['attachments']`, `for journal in journals` and
`attachments.extend(y)` on values of arbitrary JSON shape.  Each of these
operations is total on dicts/lists/strings but raises `TypeError` (or
`KeyError`) on other values; `Except.error ()` models a raised exception
(which propagates out of the function). -/

/-- Substring test on character lists (Python `key in str`). -/
def isSubstr (needle : List Char) : List Char → Bool
  | [] => needle.isEmpty
  | c :: rest => needle.isPrefixOf (c :: rest) || isSubstr needle rest

/-- Python `key in container` for a string key: dict key lookup, list
membership, substring test on strings; `TypeError` on non-containers. -/
def pyContains (container : Json) (key : String) : Except Unit Bool :=
  match container with
  | .obj kvs => .ok (dictHas kvs key)
  | .arr xs => .ok (xs.any (fun x => match x with | .str s => s == key | _ => false))
  | .str s => .ok (isSubstr key.data s.data)
  | _ => .error ()

/-- Python `container[key]` for a string key: dict lookup (`KeyError` when
absent), `TypeError` on anything else. -/
def pySubscript (container : Json) (key : String) : Except Unit Json :=
  match container with
  | .obj kvs =>
    match kvs.find? (fun kv => kv.1 == key) with
    | some kv => .ok kv.2
    | none => .error ()
  | _ => .error ()

/-- Python iteration (`for x in j` / `list.extend(j)`): list elements,
characters of a string, keys of a dict; `TypeError` otherwise. -/
def pyIter (j : Json) : Except Unit (List Json) :=
  match j with
  | .arr xs => .ok xs
  | .str s => .ok (s.data.map (fun c => Json.str ⟨[c]⟩))
  | .obj kvs => .ok (kvs.map (fun kv => Json.str kv.1))
  | _ => .error ()

/-- The `for journal in journals` loop of get_attachments_from_issue:
journals carrying an `attachments` entry contribute its elements, in
order. -/
def journalsLoop : List Json → Except Unit (List Json)
  | [] => .ok []
  | j :: rest => do
    let hasAtts ← pyContains j "attachments"
    let atts ←
      if hasAtts then do
        let a ← pySubscript j "attachments"
        pyIter a
      else pure []
    let more ← journalsLoop rest
    pure (atts ++ more)

/-- RedmineClient.get_attachments_from_issue: top-level attachments of
`issue_data['issue']`, then the attachments of each journal entry, in
document order.  `and` short-circuits, so `issue_data['issue']` is only
subscripted when `'issue' in issue_data` held. -/
def get_attachments_from_issue (issue_data : Json) : Except Unit (List Json) := do
  let hasIssue ← pyContains issue_data "issue"
  let topAtts ←
    if hasIssue then do
      let issue ← pySubscript issue_data "issue"
      let hasAtts ← pyContains issue "attachments"
      if hasAtts then do
        let raw ← pySubscript issue "attachments"
        pyIter raw
      else pure []
    else pure []
  let journalAtts ←
    if hasIssue then do
      let issue ← pySubscript issue_data "issue"
      let hasJournals ← pyContains issue "journals"
      if hasJournals then do
        let raw ← pySubscript issue "journals"
        let journals ← pyIter raw
        journalsLoop journals
      else pure []
    else pure []
  pure (topAtts ++ journalAtts)

/-- View a value as a dict's entry list (empty for non-dicts). -/
def asEntries : Json → List (String × Json)
  | .obj kvs => kvs
  | _ => []

/-- View a value as a list's elements (empty for non-lists). -/
def asElems : Json → List Json
  | .arr xs => xs
  | _ => []

/-- The extraction result the spec describes (a second definition written
from the spec's words, for the refinement comparison): concatenate the
issue's own attachment list with the attachment list of every journal
entry, preserving document order; any missing sub-structure contributes
nothing. -/
def specExtract (doc : Json) : List Json :=
  let issue := asEntries (dictGet (asEntries doc) "issue")
  let tops := asElems (dictGet issue "attachments")
  let journals := asElems (dictGet issue "journals")
  tops ++ journals.foldr
    (fun j acc => asElems (dictGet (asEntries j) "attachments") ++ acc) []

/-! The shape predicates below single out the documents on which the
Python traversal is exception-free: every position it consults supports
the membership test, subscript and iteration applied there.  (For a
non-dict document the `in` test itself must not raise, and must not find
`"issue"`, since subscripting a list/string with a string key raises.) -/

/-- The entry named `key`, when present, holds a list. -/
def attListShape (entries : List (String × Json)) (key : String) : Bool :=
  match entries.find? (fun kv => kv.1 == key) with
  | none => true
  | some kv => match kv.2 with | .arr _ => true | _ => false

/-- A journal entry the loop can traverse: a dict whose `attachments`
entry, when present, holds a list. -/
def journalShape (j : Json) : Bool :=
  match j with
  | .obj je => attListShape je "attachments"
  | _ => false

/-- The `journals` entry, when present, holds a list of traversable
journal entries. -/
def journalsShape (issue : List (String × Json)) : Bool :=
  match issue.find? (fun kv => kv.1 == "journals") with
  | none => true
  | some kv => match kv.2 with | .arr js => js.all journalShape | _ => false

def extractWellShaped : Json → Bool
  | .obj root =>
    match root.find? (fun kv => kv.1 == "issue") with
    | none => true
    | some kv =>
      match kv.2 with
      | .obj issue => attListShape issue "attachments" && journalsShape issue
      | _ => false
  | .arr xs => !(xs.any (fun x => match x with | .str s => s == "issue" | _ => false))
  | .str s => !(isSubstr "issue".data s.data)
  | _ => false

/-! ## process_issue (get_redmine_issues.py 117-210) -/

/-- Python `str()` of a modelled value, used only to synthesize the
default attachment filename `f'attachment_{attachment_id}'`.  The
renderings of containers and generic objects are abbreviated (in the
source they would be `repr`-style; they never occur for real Redmine
attachment ids, which are integers). -/
def pyStr : Json → String
  | .null => "None"
  | .bool true => "True"
  | .bool false => "False"
  | .num n => ⟨intChars n⟩
  | .str s => s
  | .arr _ => "[...]"
  | .obj _ => "\x7b...\x7d"
  | .pyObj => "<object>"

/-- The effect oracle for one run: HTTP responses per issue id, the
`file_exists` answer per issue id, whether opening the issue file for
writing succeeds, `os.path.exists` per attachment path, and the boolean
result of `download_attachment` per (attachment id, destination path). -/
structure Env where
  net : Nat → NetOutcome
  fileExists : Nat → Bool
  openOk : Nat → Bool
  attachExists : String → Bool
  download : Json → String → Bool
  outputDir : String

/-- Running counters of the attachment fan-out loop
(`download_successful`, `download_failed`) together with the results of
the `download_attachment` calls made so far, in call order. -/
structure FanState where
  succ : Nat
  failed : Nat
  calls : List Bool
deriving Repr, DecidableEq

/-- One iteration of the attachment loop (get_redmine_issues.py 166-189):
read `id` and `filename` from the descriptor, skip descriptors with a
falsy id (counted as failed), skip existing destination files (counted as
successful, no download), otherwise call `download_attachment` and count
its boolean result.  A non-dict descriptor raises `AttributeError` at
`.get`; a non-string filename raises `TypeError` inside
`get_attachment_file_path`; either exception aborts `process_issue`
(`Except.error`). -/
def attStep (env : Env) (issue_id : Nat) (st : FanState) (a : Json) :
    Except Unit FanState :=
  match a with
  | .obj kvs =>
    let aid := dictGet kvs "id"
    let filenameJ :=
      if dictHas kvs "filename" then dictGet kvs "filename"
      else .str ("attachment_" ++ pyStr aid)
    if jsonTruthy aid then
      match filenameJ with
      | .str fname =>
        let path := get_attachment_file_path env.outputDir issue_id fname
        if env.attachExists path then .ok { st with succ := st.succ + 1 }
        else if env.download aid path then
          .ok { st with succ := st.succ + 1, calls := st.calls ++ [true] }
        else
          .ok { st with failed := st.failed + 1, calls := st.calls ++ [false] }
      | _ => .error ()
    else .ok { st with failed := st.failed + 1 }
  | _ => .error ()

/-- The attachment fan-out loop; the boolean is `false` when an iteration
raised, in which case the state of the completed iterations is kept. -/
def fanLoop (env : Env) (issue_id : Nat) : List Json → FanState → FanState × Bool
  | [], st => (st, true)
  | a :: rest, st =>
    match attStep env issue_id st a with
    | .ok st' => fanLoop env issue_id rest st'
    | .error _ => (st, false)

/-- Observable outcome of one `process_issue` call. -/
structure ProcResult where
  success : Bool
  fetchCalls : Nat
  wroteIssueFile : Bool
  downloadCalls : List Bool
  reportedFailed : Nat
deriving Repr, DecidableEq

/-- process_issue: skip-check, fetch, save, attachment fan-out.  Every
raised exception is caught by one of the three handlers (lines 200-210)
and turned into `False`; `fetchCalls` counts `client.get_issue` calls;
`wroteIssueFile` says whether the issue file's content was replaced
(fully or partially); `downloadCalls` lists the results of the
`client.download_attachment` calls in order; `reportedFailed` is the
`download_failed` count reported by the completion log line (`0` when the
loop was not reached, aborted, or had no failures). -/
def process_issue (env : Env) (issue_id : Nat)
    (skip_existing download_attachments : Bool) : ProcResult :=
  if skip_existing && env.fileExists issue_id then
    { success := true, fetchCalls := 0, wroteIssueFile := false,
      downloadCalls := [], reportedFailed := 0 }
  else
    match get_issue (env.net issue_id) with
    | .apiError =>
      { success := false, fetchCalls := 1, wroteIssueFile := false,
        downloadCalls := [], reportedFailed := 0 }
    | .notFound =>
      { success := false, fetchCalls := 1, wroteIssueFile := false,
        downloadCalls := [], reportedFailed := 0 }
    | .ok issue_data =>
      match save_issue_json (env.openOk issue_id) issue_data with
      | .osError =>
        { success := false, fetchCalls := 1, wroteIssueFile := false,
          downloadCalls := [], reportedFailed := 0 }
      | .valueError _ =>
        { success := false, fetchCalls := 1, wroteIssueFile := true,
          downloadCalls := [], reportedFailed := 0 }
      | .saved _ =>
        if download_attachments then
          match get_attachments_from_issue issue_data with
          | .error _ =>
            { success := false, fetchCalls := 1, wroteIssueFile := true,
              downloadCalls := [], reportedFailed := 0 }
          | .ok attachments =>
            if attachments.isEmpty then
              { success := true, fetchCalls := 1, wroteIssueFile := true,
                downloadCalls := [], reportedFailed := 0 }
            else
              match fanLoop env issue_id attachments ⟨0, 0, []⟩ with
              | (st, true) =>
                { success := true, fetchCalls := 1, wroteIssueFile := true,
                  downloadCalls := st.calls, reportedFailed := st.failed }
              | (st, false) =>
                { success := false, fetchCalls := 1, wroteIssueFile := true,
                  downloadCalls := st.calls, reportedFailed := 0 }
        else
          { success := true, fetchCalls := 1, wroteIssueFile := true,
            downloadCalls := [], reportedFailed := 0 }

/-! ## The batch loop of main (get_redmine_issues.py 297-326) -/

/-- The `for issue_id in args.issue_ids` loop: tally one boolean per
identifier into (successful_count, failed_count). -/
def batchLoop (env : Env) (skip dl : Bool) : List Nat → Nat × Nat → Nat × Nat
  | [], acc => acc
  | i :: rest, (s, f) =>
    if (process_issue env i skip dl).success then batchLoop env skip dl rest (s + 1, f)
    else batchLoop env skip dl rest (s, f + 1)

/-- Exit code of main after configuration and connectivity succeeded:
`1` when `failed_count > 0`, else `0` (lines 319-326). -/
def mainExitCode (env : Env) (skip dl : Bool) (issue_ids : List Nat) : Nat :=
  let res := batchLoop env skip dl issue_ids (0, 0)
  if 0 < res.2 then 1 else 0

/-! ## The success flag of `dumpVal` is serializability -/

theorem all_of_perm (p : α → Bool) {l₁ l₂ : List α} (h : l₁.Perm l₂) :
    l₁.all p = l₂.all p := by
  by_cases h1 : l₁.all p = true
  · rw [h1]
    exact (List.all_eq_true.mpr
      (fun a ha => List.all_eq_true.mp h1 a (h.mem_iff.mpr ha))).symm
  · have h2 : ¬ l₂.all p = true := fun hh =>
      h1 (List.all_eq_true.mpr
        (fun a ha => List.all_eq_true.mp hh a (h.mem_iff.mp ha)))
    rw [Bool.not_eq_true] at h1 h2
    rw [h1, h2]

theorem joinArr_flag (ind : Nat) (ps : List (List Char × Bool)) :
    (joinArr ind ps).2 = ps.all (fun p => p.2) := by
  induction ps with
  | nil => rfl
  | cons p rest ih =>
    obtain ⟨s, ok⟩ := p
    cases ok <;> simp [joinArr, ih]

theorem dumpArrAssemble_flag (ind : Nat) (ps : List (List Char × Bool)) :
    (dumpArrAssemble ind ps).2 = ps.all (fun p => p.2) := by
  cases ps with
  | nil => rfl
  | cons p rest =>
    obtain ⟨s, ok⟩ := p
    cases ok
    · simp [dumpArrAssemble]
    · simp only [dumpArrAssemble, if_true, List.all_cons]
      have := joinArr_flag (ind + 1) rest
      cases h2 : (joinArr (ind + 1) rest).2 <;> rw [h2] at this <;> simp [← this]

theorem joinObj_flag (ind : Nat) (ps : List (String × (List Char × Bool))) :
    (joinObj ind ps).2 = ps.all (fun p => p.2.2) := by
  induction ps with
  | nil => rfl
  | cons p rest ih =>
    obtain ⟨k, s, ok⟩ := p
    cases ok <;> simp [joinObj, ih]

theorem dumpObjAssemble_flag (ind : Nat) (ps : List (String × (List Char × Bool))) :
    (dumpObjAssemble ind ps).2 = ps.all (fun p => p.2.2) := by
  cases ps with
  | nil => rfl
  | cons p rest =>
    obtain ⟨k, s, ok⟩ := p
    cases ok
    · simp [dumpObjAssemble]
    · simp only [dumpObjAssemble, if_true, List.all_cons]
      have := joinObj_flag (ind + 1) rest
      cases h2 : (joinObj (ind + 1) rest).2 <;> rw [h2] at this <;> simp [← this]

theorem jsize_pos : ∀ j : Json, 1 ≤ jsize j := by
  intro j
  cases j <;> simp only [jsize] <;> omega

theorem jsize_le_of_mem_list {x : Json} : ∀ {xs : List Json}, x ∈ xs →
    jsize x ≤ jsizeList xs := by
  intro xs
  induction xs with
  | nil => intro h; cases h
  | cons y ys ih =>
    intro h
    rcases List.mem_cons.mp h with rfl | h
    · simp [jsizeList]; omega
    · have := ih h
      simp [jsizeList]; omega

theorem jsize_le_of_mem_entries {kv : String × Json} :
    ∀ {kvs : List (String × Json)}, kv ∈ kvs →
      jsize kv.2 ≤ jsizeEntries kvs := by
  intro kvs
  induction kvs with
  | nil => intro h; cases h
  | cons p ps ih =>
    intro h
    rcases List.mem_cons.mp h with rfl | h
    · simp [jsizeEntries]; omega
    · have := ih h
      simp [jsizeEntries]; omega

theorem dumpElems_flag_of (ind : Nat) (xs : List Json)
    (h : ∀ x ∈ xs, ∀ i, (dumpVal i x).2 = serializableJson x) :
    (dumpElems ind xs).all (fun p => p.2) = serializableList xs := by
  induction xs with
  | nil => rfl
  | cons x rest ih =>
    simp only [dumpElems, List.all_cons, serializableList]
    rw [h x (by simp) ind, ih (fun y hy => h y (by simp [hy]))]

theorem dumpEntries_flag_of (ind : Nat) (kvs : List (String × Json))
    (h : ∀ kv ∈ kvs, ∀ i, (dumpVal i kv.2).2 = serializableJson kv.2) :
    (dumpEntries ind kvs).all (fun p => p.2.2) = serializableEntries kvs := by
  induction kvs with
  | nil => rfl
  | cons kv rest ih =>
    obtain ⟨k, v⟩ := kv
    simp only [dumpEntries, List.all_cons, serializableEntries]
    rw [h (k, v) (by simp) ind, ih (fun y hy => h y (by simp [hy]))]

theorem dumpEntries_perm (ind : Nat) (kvs : List (String × Json)) :
    (sortEntries (dumpEntries ind kvs)).Perm (dumpEntries ind kvs) :=
  sortBy_perm _ _

theorem dump_flag_aux : ∀ n : Nat, ∀ j : Json, jsize j ≤ n → ∀ ind,
    (dumpVal ind j).2 = serializableJson j := by
  intro n
  induction n with
  | zero =>
    intro j hj
    have := jsize_pos j
    omega
  | succ n ih =>
    intro j hj ind
    cases j with
    | null => rfl
    | bool b => cases b <;> rfl
    | num m => rfl
    | str s => rfl
    | pyObj => rfl
    | arr xs =>
      show (dumpArrAssemble ind (dumpElems (ind + 1) xs)).2 = _
      rw [dumpArrAssemble_flag]
      exact dumpElems_flag_of _ xs (fun x hx i => by
        refine ih x ?_ i
        have h1 := jsize_le_of_mem_list hx
        simp [jsize] at hj
        omega)
    | obj kvs =>
      show (dumpObjAssemble ind (sortEntries (dumpEntries (ind + 1) kvs))).2 = _
      rw [dumpObjAssemble_flag, all_of_perm _ (dumpEntries_perm (ind + 1) kvs)]
      exact dumpEntries_flag_of _ kvs (fun kv hkv i => by
        refine ih kv.2 ?_ i
        have h1 := jsize_le_of_mem_entries hkv
        simp [jsize] at hj
        omega)

/-- The `json.dump` model succeeds exactly on serializable documents. -/
theorem dump_flag (ind : Nat) (j : Json) :
    (dumpVal ind j).2 = serializableJson j :=
  dump_flag_aux (jsize j) j (Nat.le_refl _) ind

/-! ## Claim C2: save_issue_json -/

/-- A document holding one value the `json` module cannot serialize. -/
def docBad : Json := .obj [("a", .pyObj), ("b", .num 1)]

/-- C2 counterexample: `save_issue_json` is not atomic when it raises.  On
a non-serializable document the call raises (a `ValueError`), yet the
prior content `"OLD"` of the issue file has been destroyed: the file now
holds the partial prefix the incremental encoder wrote after `open('w')`
truncated it. -/
theorem save_issue_json_raise_overwrites :
    saveRaises (save_issue_json true docBad) = true ∧
    fileAfterSave (some "OLD") (save_issue_json true docBad) ≠ some "OLD" ∧
    fileAfterSave (some "OLD") (save_issue_json true docBad)
      = some "\x7b\n  \"a\": " := by
  refine ⟨rfl, ?_, rfl⟩
  decide

/-- C2 (amended): `save_issue_json` performs a whole-file write of the
serialized document and returns normally when the open succeeds and the
document is serializable; it raises `OSError` with the prior content
untouched when the open fails; and it raises `ValueError` on a
non-serializable document — but in that case the prior content at the
issue path has already been truncated and replaced by the partial prefix
written before the failure (the write is not atomic in the raising
case). -/
theorem save_issue_json_spec (openOk : Bool) (doc : Json) (prior : Option String) :
    (openOk = false →
       save_issue_json openOk doc = .osError ∧
       fileAfterSave prior (save_issue_json openOk doc) = prior) ∧
    (openOk = true → serializableJson doc = true →
       save_issue_json openOk doc = .saved (serialize doc) ∧
       fileAfterSave prior (save_issue_json openOk doc) = some (serialize doc)) ∧
    (openOk = true → serializableJson doc = false →
       saveRaises (save_issue_json openOk doc) = true ∧
       fileAfterSave prior (save_issue_json openOk doc)
         = some ⟨(dumpVal 0 doc).1⟩) := by
  refine ⟨?_, ?_, ?_⟩
  · rintro rfl
    exact ⟨rfl, rfl⟩
  · rintro rfl hser
    have hflag : (dumpVal 0 doc).2 = true := (dump_flag 0 doc).trans hser
    simp only [save_issue_json, if_true, serialize]
    cases hd : dumpVal 0 doc with
    | mk w flag =>
      rw [hd] at hflag
      subst hflag
      exact ⟨rfl, rfl⟩
  · rintro rfl hser
    have hflag : (dumpVal 0 doc).2 = false := (dump_flag 0 doc).trans hser
    simp only [save_issue_json, if_true, saveRaises]
    cases hd : dumpVal 0 doc with
    | mk w flag =>
      rw [hd] at hflag
      subst hflag
      exact ⟨rfl, rfl⟩

/-- C2 witness: the amended statement applied to a concrete serializable
document, a concrete non-serializable document, and a failed open. -/
theorem save_issue_json_spec_witness :
    ((false : Bool) = false ∧ (true : Bool) = true ∧
      serializableJson (.obj [("k", .num 3)]) = true ∧
      serializableJson docBad = false) ∧
    (save_issue_json false (.obj [("k", .num 3)]) = .osError ∧
      fileAfterSave (some "OLD") (save_issue_json false (.obj [("k", .num 3)]))
        = some "OLD") ∧
    (save_issue_json true (.obj [("k", .num 3)])
        = .saved (serialize (.obj [("k", .num 3)])) ∧
      fileAfterSave none (save_issue_json true (.obj [("k", .num 3)]))
        = some (serialize (.obj [("k", .num 3)]))) ∧
    (saveRaises (save_issue_json true docBad) = true ∧
      fileAfterSave none (save_issue_json true docBad)
        = some ⟨(dumpVal 0 docBad).1⟩) :=
  ⟨⟨rfl, rfl, rfl, rfl⟩,
    (save_issue_json_spec false (.obj [("k", .num 3)]) (some "OLD")).1 rfl,
    (save_issue_json_spec true (.obj [("k", .num 3)]) none).2.1 rfl rfl,
    (save_issue_json_spec true docBad none).2.2 rfl rfl⟩

/-! ## Claims C3 and C4: the 404 path and the skip path -/

/-- C3: for every issue whose fetch would return HTTP 404 (and that is not
short-circuited by the skip-on-exists check, in which case no fetch
happens), `get_issue` reports absence rather than raising, `process_issue`
returns failure, and nothing is written at the issue path. -/
theorem process_issue_404 (env : Env) (issue_id : Nat) (skip dl : Bool)
    (body : Option Json)
    (hnet : env.net issue_id = .resp 404 body)
    (hskip : (skip && env.fileExists issue_id) = false) :
    get_issue (env.net issue_id) = .notFound ∧
    (process_issue env issue_id skip dl).success = false ∧
    (process_issue env issue_id skip dl).wroteIssueFile = false := by
  have h1 : get_issue (env.net issue_id) = .notFound := by
    rw [hnet]; rfl
  refine ⟨h1, ?_, ?_⟩ <;> simp [process_issue, hskip, h1]

/-- C4: if skip-on-exists is enabled and the issue file already exists,
`process_issue` succeeds with no fetch, no write and no download call. -/
theorem process_issue_skip (env : Env) (issue_id : Nat) (dl : Bool)
    (hex : env.fileExists issue_id = true) :
    (process_issue env issue_id true dl).success = true ∧
    (process_issue env issue_id true dl).fetchCalls = 0 ∧
    (process_issue env issue_id true dl).downloadCalls = [] ∧
    (process_issue env issue_id true dl).wroteIssueFile = false := by
  refine ⟨?_, ?_, ?_, ?_⟩ <;> simp [process_issue, hex]

/-! Concrete oracle and documents used by the witnesses. -/

/-- A fetched document with three attachment descriptors: one with a valid
id and filename, one with a valid id and no filename, and one with no id
at all. -/
def docA : Json := .obj [("issue", .obj [("attachments", .arr [
  .obj [("id", .num 11), ("filename", .str "a.txt")],
  .obj [("id", .num 12)],
  .obj []])])]

/-- A concrete oracle: issue 1 fetches `docA`, every other id is 404; only
issue 7's file pre-exists; opens succeed; no attachment file pre-exists;
downloading attachment 11 succeeds and attachment 12 fails. -/
def envM : Env where
  net := fun i => if i == 1 then .resp 200 (some docA) else .resp 404 none
  fileExists := fun i => i == 7
  openOk := fun _ => true
  attachExists := fun _ => false
  download := fun aid _ => match aid with | .num 11 => true | _ => false
  outputDir := "out"

/-- C3 witness: issue 2 of `envM` gets a 404; `process_issue` fails and
writes nothing. -/
theorem process_issue_404_witness :
    (envM.net 2 = .resp 404 none ∧ (false && envM.fileExists 2) = false) ∧
    get_issue (envM.net 2) = .notFound ∧
    (process_issue envM 2 false true).success = false ∧
    (process_issue envM 2 false true).wroteIssueFile = false :=
  ⟨⟨rfl, rfl⟩, process_issue_404 envM 2 false true none rfl rfl⟩

/-- C4 witness: issue 7 of `envM` pre-exists; with skip-on-exists enabled
`process_issue` succeeds without any fetch or download. -/
theorem process_issue_skip_witness :
    envM.fileExists 7 = true ∧
    (process_issue envM 7 true true).success = true ∧
    (process_issue envM 7 true true).fetchCalls = 0 ∧
    (process_issue envM 7 true true).downloadCalls = [] ∧
    (process_issue envM 7 true true).wroteIssueFile = false :=
  ⟨rfl, process_issue_skip envM 7 true rfl⟩

/-! ## Claim C7: the batch loop and the exit status -/

theorem filter_split_length (p : α → Bool) (l : List α) :
    (l.filter p).length + (l.filter (fun a => !(p a))).length = l.length := by
  induction l with
  | nil => rfl
  | cons a rest ih =>
    cases h : p a <;> simp [List.filter_cons, h] <;> omega

theorem batchLoop_eq (env : Env) (skip dl : Bool) :
    ∀ (ids : List Nat) (s f : Nat),
      batchLoop env skip dl ids (s, f)
        = (s + (ids.filter (fun i => (process_issue env i skip dl).success)).length,
           f + (ids.filter (fun i => !(process_issue env i skip dl).success)).length) := by
  intro ids
  induction ids with
  | nil => intro s f; simp [batchLoop]
  | cons i rest ih =>
    intro s f
    cases h : (process_issue env i skip dl).success
    · simp only [batchLoop, h, Bool.false_eq_true, if_false, ih,
        List.filter_cons, h, Bool.not_false, if_true]
      refine Prod.ext ?_ ?_ <;> simp <;> omega
    · simp only [batchLoop, h, if_true, ih, List.filter_cons, h,
        Bool.not_true, Bool.false_eq_true, if_false]
      refine Prod.ext ?_ ?_ <;> simp <;> omega

/-- C7: after configuration and connectivity succeed, the batch loop
tallies exactly one boolean per requested identifier (per-issue failures
never abort the batch: the counts always sum to the number of requested
ids), and the exit status is non-zero exactly when at least one issue
failed; a skipped issue counts as success. -/
theorem batch_exit_spec (env : Env) (skip dl : Bool) (issue_ids : List Nat) :
    (batchLoop env skip dl issue_ids (0, 0)).1
        = (issue_ids.filter (fun i => (process_issue env i skip dl).success)).length ∧
    (batchLoop env skip dl issue_ids (0, 0)).2
        = (issue_ids.filter (fun i => !(process_issue env i skip dl).success)).length ∧
    (batchLoop env skip dl issue_ids (0, 0)).1
        + (batchLoop env skip dl issue_ids (0, 0)).2 = issue_ids.length ∧
    (mainExitCode env skip dl issue_ids = 0 ↔
      ∀ i ∈ issue_ids, (process_issue env i skip dl).success = true) ∧
    (mainExitCode env skip dl issue_ids = 1 ↔
      ∃ i ∈ issue_ids, (process_issue env i skip dl).success = false) ∧
    (skip = true → ∀ i ∈ issue_ids, env.fileExists i = true →
      (process_issue env i skip dl).success = true) := by
  have hb := batchLoop_eq env skip dl issue_ids 0 0
  have h1 : (batchLoop env skip dl issue_ids (0, 0)).1
      = (issue_ids.filter (fun i => (process_issue env i skip dl).success)).length := by
    rw [hb]; simp
  have h2 : (batchLoop env skip dl issue_ids (0, 0)).2
      = (issue_ids.filter (fun i => !(process_issue env i skip dl).success)).length := by
    rw [hb]; simp
  have hzero : (batchLoop env skip dl issue_ids (0, 0)).2 = 0 ↔
      ∀ i ∈ issue_ids, (process_issue env i skip dl).success = true := by
    rw [h2, List.length_eq_zero, List.filter_eq_nil]
    constructor
    · intro h i hi
      have := h i hi
      simpa using this
    · intro h i hi
      simp [h i hi]
  have hm : mainExitCode env skip dl issue_ids
      = if 0 < (batchLoop env skip dl issue_ids (0, 0)).2 then 1 else 0 := rfl
  refine ⟨h1, h2, ?_, ?_, ?_, ?_⟩
  · rw [h1, h2]; exact filter_split_length _ _
  · rw [hm]
    constructor
    · intro h
      apply hzero.mp
      by_contra hnz
      have hf : 0 < (batchLoop env skip dl issue_ids (0, 0)).2 :=
        Nat.pos_of_ne_zero hnz
      rw [if_pos hf] at h
      exact absurd h one_ne_zero
    · intro h
      rw [hzero.mpr h]
      simp
  · rw [hm]
    constructor
    · intro h
      by_contra hno
      push_neg at hno
      have hall : ∀ i ∈ issue_ids, (process_issue env i skip dl).success = true := by
        intro i hi
        have hni := hno i hi
        revert hni
        cases (process_issue env i skip dl).success <;> simp
      rw [hzero.mpr hall] at h
      simp at h
    · rintro ⟨i, hi, hfail⟩
      have hnz : (batchLoop env skip dl issue_ids (0, 0)).2 ≠ 0 := by
        intro hz
        have hsucc := hzero.mp hz i hi
        rw [hfail] at hsucc
        exact absurd hsucc (by simp)
      rw [if_pos (Nat.pos_of_ne_zero hnz)]
  · rintro rfl i _ hex
    simp [process_issue, hex]

/-! ## Claim C6: attachment extraction -/

theorem except_bind_ok (a : α) (f : α → Except Unit β) :
    (Except.ok a >>= f) = f a := rfl

theorem except_bind_err (f : α → Except Unit β) :
    ((Except.error () : Except Unit α) >>= f) = .error () := rfl

theorem journalsLoop_ok : ∀ js : List Json, js.all journalShape = true →
    journalsLoop js
      = .ok (js.foldr
          (fun j acc => asElems (dictGet (asEntries j) "attachments") ++ acc) []) := by
  intro js
  induction js with
  | nil => intro _; rfl
  | cons j rest ih =>
    intro h
    simp only [List.all_cons, Bool.and_eq_true] at h
    obtain ⟨hj, hrest⟩ := h
    cases j with
    | obj je =>
      simp only [journalShape, attListShape] at hj
      simp only [journalsLoop, pyContains, dictHas, except_bind_ok, List.foldr]
      cases hfa : je.find? (fun kv => kv.1 == "attachments") with
      | none =>
        simp only [hfa, Option.isSome_none, Bool.false_eq_true, if_false,
          except_bind_ok, ih hrest, asEntries, dictGet, hfa, asElems,
          List.nil_append]
        rfl
      | some kv =>
        rw [hfa] at hj
        have hj' : (match kv.2 with | Json.arr _ => true | _ => false) = true := hj
        cases hkv : kv.2 with
        | arr xs =>
          simp [pySubscript, pyIter, hfa, hkv, ih hrest, asEntries, dictGet,
            asElems, except_bind_ok, Except.bind, pure, Except.pure]
        | null => rw [hkv] at hj'; simp at hj'
        | bool b => rw [hkv] at hj'; simp at hj'
        | num n => rw [hkv] at hj'; simp at hj'
        | str s => rw [hkv] at hj'; simp at hj'
        | obj kvs => rw [hkv] at hj'; simp at hj'
        | pyObj => rw [hkv] at hj'; simp at hj'
    | null => exact absurd hj (by simp [journalShape])
    | bool b => exact absurd hj (by simp [journalShape])
    | num n => exact absurd hj (by simp [journalShape])
    | str s => exact absurd hj (by simp [journalShape])
    | arr xs => exact absurd hj (by simp [journalShape])
    | pyObj => exact absurd hj (by simp [journalShape])

/-- C6 (amended): on every document whose consulted positions have the
container shapes the traversal expects, `get_attachments_from_issue`
raises nothing and returns exactly the concatenation of the issue's own
attachment list with the attachment lists of its journal entries, in
document order (`specExtract`, written from the spec).  (The original
claim's "never an error" is refuted by `get_attachments_raises`: a
non-container value at a consulted position raises `TypeError`.) -/
theorem get_attachments_spec (doc : Json) (h : extractWellShaped doc = true) :
    get_attachments_from_issue doc = .ok (specExtract doc) := by
  cases doc with
  | obj root =>
    have h' : (match root.find? (fun kv => kv.1 == "issue") with
        | none => true
        | some kv =>
          match kv.2 with
          | Json.obj issue => attListShape issue "attachments" && journalsShape issue
          | _ => false) = true := h
    cases hf : root.find? (fun kv => kv.1 == "issue") with
    | none =>
      simp [get_attachments_from_issue, pyContains, dictHas, hf, specExtract,
        asEntries, dictGet, asElems, except_bind_ok, Except.bind, pure,
        Except.pure]
    | some kv =>
      rw [hf] at h'
      have h'' : (match kv.2 with
          | Json.obj issue => attListShape issue "attachments" && journalsShape issue
          | _ => false) = true := h'
      cases hkv : kv.2 with
      | obj issue =>
        rw [hkv] at h''
        have hsh : (attListShape issue "attachments" && journalsShape issue) = true := h''
        rw [Bool.and_eq_true] at hsh
        obtain ⟨hatts, hjs⟩ := hsh
        have hatts' : (match issue.find? (fun kv => kv.1 == "attachments") with
            | none => true
            | some kv => match kv.2 with | Json.arr _ => true | _ => false)
            = true := hatts
        have hjs' : (match issue.find? (fun kv => kv.1 == "journals") with
            | none => true
            | some kv =>
              match kv.2 with | Json.arr js => js.all journalShape | _ => false)
            = true := hjs
        cases hfa : issue.find? (fun kv => kv.1 == "attachments") with
        | none =>
          cases hfj : issue.find? (fun kv => kv.1 == "journals") with
          | none =>
            simp [get_attachments_from_issue, pyContains, pySubscript, dictHas,
              hf, hkv, hfa, hfj, specExtract, asEntries, dictGet, asElems,
              except_bind_ok, Except.bind, pure, Except.pure]
          | some kv3 =>
            rw [hfj] at hjs'
            have h3 : (match kv3.2 with
                | Json.arr js => js.all journalShape | _ => false) = true := hjs'
            cases hkv3 : kv3.2 with
            | arr js =>
              rw [hkv3] at h3
              simp [get_attachments_from_issue, pyContains, pySubscript, pyIter,
                dictHas, hf, hkv, hfa, hfj, hkv3, journalsLoop_ok js h3,
                specExtract, asEntries, dictGet, asElems, except_bind_ok,
                Except.bind, pure, Except.pure]
            | null => rw [hkv3] at h3; simp at h3
            | bool b => rw [hkv3] at h3; simp at h3
            | num n => rw [hkv3] at h3; simp at h3
            | str s => rw [hkv3] at h3; simp at h3
            | obj kvs => rw [hkv3] at h3; simp at h3
            | pyObj => rw [hkv3] at h3; simp at h3
        | some kv2 =>
          rw [hfa] at hatts'
          have h2 : (match kv2.2 with | Json.arr _ => true | _ => false) = true :=
            hatts'
          cases hkv2 : kv2.2 with
          | arr tops =>
            cases hfj : issue.find? (fun kv => kv.1 == "journals") with
            | none =>
              simp [get_attachments_from_issue, pyContains, pySubscript, pyIter,
                dictHas, hf, hkv, hfa, hkv2, hfj, specExtract, asEntries,
                dictGet, asElems, except_bind_ok, Except.bind, pure,
                Except.pure]
            | some kv3 =>
              rw [hfj] at hjs'
              have h3 : (match kv3.2 with
                  | Json.arr js => js.all journalShape | _ => false) = true := hjs'
              cases hkv3 : kv3.2 with
              | arr js =>
                rw [hkv3] at h3
                simp [get_attachments_from_issue, pyContains, pySubscript,
                  pyIter, dictHas, hf, hkv, hfa, hkv2, hfj, hkv3,
                  journalsLoop_ok js h3, specExtract, asEntries, dictGet,
                  asElems, except_bind_ok, Except.bind, pure, Except.pure]
              | null => rw [hkv3] at h3; simp at h3
              | bool b => rw [hkv3] at h3; simp at h3
              | num n => rw [hkv3] at h3; simp at h3
              | str s => rw [hkv3] at h3; simp at h3
              | obj kvs => rw [hkv3] at h3; simp at h3
              | pyObj => rw [hkv3] at h3; simp at h3
          | null => rw [hkv2] at h2; simp at h2
          | bool b => rw [hkv2] at h2; simp at h2
          | num n => rw [hkv2] at h2; simp at h2
          | str s => rw [hkv2] at h2; simp at h2
          | obj kvs => rw [hkv2] at h2; simp at h2
          | pyObj => rw [hkv2] at h2; simp at h2
      | null => rw [hkv] at h''; simp at h''
      | bool b => rw [hkv] at h''; simp at h''
      | num n => rw [hkv] at h''; simp at h''
      | str s => rw [hkv] at h''; simp at h''
      | arr xs => rw [hkv] at h''; simp at h''
      | pyObj => rw [hkv] at h''; simp at h''
  | arr xs =>
    have h' : (!(xs.any (fun x => match x with | .str s => s == "issue" | _ => false)))
        = true := h
    rw [Bool.not_eq_true'] at h'
    simp [get_attachments_from_issue, pyContains, h', specExtract, asEntries,
      dictGet, asElems, except_bind_ok, Except.bind, pure, Except.pure]
  | str s =>
    have h' : (!(isSubstr "issue".data s.data)) = true := h
    rw [Bool.not_eq_true'] at h'
    simp [get_attachments_from_issue, pyContains, h', specExtract, asEntries,
      dictGet, asElems, except_bind_ok, Except.bind, pure, Except.pure]
  | null => simp [extractWellShaped] at h
  | bool b => simp [extractWellShaped] at h
  | num n => simp [extractWellShaped] at h
  | pyObj => simp [extractWellShaped] at h

/-- C6 counterexample: extraction is not error-free on every document.  On
the document `{"issue": 5}` the test `'attachments' in 5` raises
`TypeError` (an integer supports no membership test), so
`get_attachments_from_issue` raises instead of returning a list. -/
theorem get_attachments_raises :
    get_attachments_from_issue (.obj [("issue", .num 5)]) = .error () := rfl

/-- The spec's concrete instance: 2 top-level attachments and journals
with 1 and 0 attachments. -/
def docB : Json := .obj [("issue", .obj [
  ("attachments", .arr [.str "t1", .str "t2"]),
  ("journals", .arr [.obj [("attachments", .arr [.str "j1"])], .obj []])])]

/-- C6 witness: on the spec's 2+1+0 document the amended theorem yields
the 3-element sequence in document order. -/
theorem get_attachments_spec_witness :
    extractWellShaped docB = true ∧
    get_attachments_from_issue docB = .ok [.str "t1", .str "t2", .str "j1"] :=
  ⟨rfl, get_attachments_spec docB rfl⟩

/-! ## Claim C1: attachment accounting in process_issue -/

/-- Number of `false` entries in a list of download results. -/
def countFalse (l : List Bool) : Nat := (l.filter (fun b => !b)).length

/-- Whether a descriptor is a dict whose `id` entry is truthy (the
condition under which the loop attempts a download at all). -/
def attIdTruthy : Json → Bool
  | .obj kvs => jsonTruthy (dictGet kvs "id")
  | _ => false

/-- Number of extracted descriptors with a missing/falsy id; the loop
counts each of these as a failed download without calling
`download_attachment`. -/
def invalidIdCount (atts : List Json) : Nat :=
  (atts.filter (fun a => !attIdTruthy a)).length

theorem countFalse_cons_true (l : List Bool) :
    countFalse (true :: l) = countFalse l := by
  simp [countFalse]

theorem countFalse_cons_false (l : List Bool) :
    countFalse (false :: l) = 1 + countFalse l := by
  simp [countFalse, List.filter_cons]
  omega

theorem countFalse_append (l₁ l₂ : List Bool) :
    countFalse (l₁ ++ l₂) = countFalse l₁ + countFalse l₂ := by
  simp [countFalse, List.filter_append]

theorem fanLoop_counts (env : Env) (issue_id : Nat) :
    ∀ (atts : List Json) (st st' : FanState),
      fanLoop env issue_id atts st = (st', true) →
      ∃ nc, st'.calls = st.calls ++ nc ∧
        st'.failed = st.failed + countFalse nc + invalidIdCount atts := by
  intro atts
  induction atts with
  | nil =>
    intro st st' h
    simp only [fanLoop, Prod.mk.injEq] at h
    refine ⟨[], ?_, ?_⟩
    · rw [← h.1]; simp
    · rw [← h.1]; simp [countFalse, invalidIdCount]
  | cons a rest ih =>
    intro st st' h
    unfold fanLoop at h
    cases hstep : attStep env issue_id st a with
    | error e => rw [hstep] at h; simp at h
    | ok st1 =>
      rw [hstep] at h
      obtain ⟨nc, hc, hf⟩ := ih st1 st' h
      cases a with
      | obj kvs =>
        simp only [attStep] at hstep
        by_cases ht : jsonTruthy (dictGet kvs "id") = true
        · rw [if_pos ht] at hstep
          cases hfn : (if dictHas kvs "filename" then dictGet kvs "filename"
              else Json.str ("attachment_" ++ pyStr (dictGet kvs "id"))) with
          | str fname =>
            rw [hfn] at hstep
            have hstep2 : (if env.attachExists
                  (get_attachment_file_path env.outputDir issue_id fname) = true
                then (Except.ok ⟨st.succ + 1, st.failed, st.calls⟩ :
                  Except Unit FanState)
                else if env.download (dictGet kvs "id")
                    (get_attachment_file_path env.outputDir issue_id fname) = true
                  then Except.ok ⟨st.succ + 1, st.failed, st.calls ++ [true]⟩
                  else Except.ok ⟨st.succ, st.failed + 1, st.calls ++ [false]⟩)
                = Except.ok st1 := hstep
            clear hstep
            by_cases hex : env.attachExists
                (get_attachment_file_path env.outputDir issue_id fname) = true
            · rw [if_pos hex] at hstep2
              simp only [Except.ok.injEq] at hstep2
              subst hstep2
              refine ⟨nc, by simpa using hc, ?_⟩
              simp only at hf
              rw [hf]
              have hinv : invalidIdCount (Json.obj kvs :: rest)
                  = invalidIdCount rest := by
                simp [invalidIdCount, List.filter_cons, attIdTruthy, ht]
              rw [hinv]
            · rw [if_neg hex] at hstep2
              by_cases hdl : env.download (dictGet kvs "id")
                  (get_attachment_file_path env.outputDir issue_id fname) = true
              · rw [if_pos hdl] at hstep2
                simp only [Except.ok.injEq] at hstep2
                subst hstep2
                refine ⟨true :: nc, ?_, ?_⟩
                · simp only at hc
                  rw [hc]; simp
                · simp only at hf
                  rw [hf, countFalse_cons_true]
                  have hinv : invalidIdCount (Json.obj kvs :: rest)
                      = invalidIdCount rest := by
                    simp [invalidIdCount, List.filter_cons, attIdTruthy, ht]
                  rw [hinv]
              · rw [if_neg hdl] at hstep2
                simp only [Except.ok.injEq] at hstep2
                subst hstep2
                refine ⟨false :: nc, ?_, ?_⟩
                · simp only at hc
                  rw [hc]; simp
                · simp only at hf
                  rw [hf, countFalse_cons_false]
                  have hinv : invalidIdCount (Json.obj kvs :: rest)
                      = invalidIdCount rest := by
                    simp [invalidIdCount, List.filter_cons, attIdTruthy, ht]
                  rw [hinv]
                  omega
          | null => rw [hfn] at hstep; simp at hstep
          | bool b => rw [hfn] at hstep; simp at hstep
          | num n => rw [hfn] at hstep; simp at hstep
          | arr xs => rw [hfn] at hstep; simp at hstep
          | obj kvs2 => rw [hfn] at hstep; simp at hstep
          | pyObj => rw [hfn] at hstep; simp at hstep
        · rw [if_neg ht] at hstep
          simp only [Except.ok.injEq] at hstep
          subst hstep
          refine ⟨nc, by simpa using hc, ?_⟩
          simp only at hf
          rw [hf]
          have hinv : invalidIdCount (Json.obj kvs :: rest)
              = 1 + invalidIdCount rest := by
            simp only [invalidIdCount, List.filter_cons, attIdTruthy]
            rw [Bool.not_eq_true] at ht
            simp [ht]
            omega
          rw [hinv]
          omega
      | null => simp [attStep] at hstep
      | bool b => simp [attStep] at hstep
      | num n => simp [attStep] at hstep
      | str s => simp [attStep] at hstep
      | arr xs => simp [attStep] at hstep
      | pyObj => simp [attStep] at hstep

theorem fanLoop_flag_env (env : Env) (D : Json → String → Bool) (issue_id : Nat) :
    ∀ (atts : List Json) (st₁ st₂ : FanState),
      (fanLoop { env with download := D } issue_id atts st₁).2
        = (fanLoop env issue_id atts st₂).2 := by
  intro atts
  induction atts with
  | nil => intro st₁ st₂; rfl
  | cons a rest ih =>
    intro st₁ st₂
    cases a with
    | obj kvs =>
      simp only [fanLoop, attStep]
      by_cases ht : jsonTruthy (dictGet kvs "id") = true
      · simp only [ht, if_true]
        cases hfn : (if dictHas kvs "filename" then dictGet kvs "filename"
            else Json.str ("attachment_" ++ pyStr (dictGet kvs "id"))) with
        | str fname =>
          by_cases hex : env.attachExists
              (get_attachment_file_path env.outputDir issue_id fname) = true
          · simp only [hfn, hex, if_true]
            exact ih _ _
          · simp only [hfn, hex, Bool.false_eq_true, if_false]
            by_cases hD : D (dictGet kvs "id")
                (get_attachment_file_path env.outputDir issue_id fname) = true
            · by_cases hd : env.download (dictGet kvs "id")
                  (get_attachment_file_path env.outputDir issue_id fname) = true
              · simp only [hD, hd, if_true]
                exact ih _ _
              · simp only [hD, if_true, hd, Bool.false_eq_true, if_false]
                exact ih _ _
            · by_cases hd : env.download (dictGet kvs "id")
                  (get_attachment_file_path env.outputDir issue_id fname) = true
              · simp only [hD, Bool.false_eq_true, if_false, hd, if_true]
                exact ih _ _
              · simp only [hD, hd, Bool.false_eq_true, if_false]
                exact ih _ _
        | null => simp [hfn]
        | bool b => simp [hfn]
        | num n => simp [hfn]
        | arr xs => simp [hfn]
        | obj kvs2 => simp [hfn]
        | pyObj => simp [hfn]
      · simp only [ht, Bool.false_eq_true, if_false]
        exact ih _ _
    | null => simp [fanLoop, attStep]
    | bool b => simp [fanLoop, attStep]
    | num n => simp [fanLoop, attStep]
    | str s => simp [fanLoop, attStep]
    | arr xs => simp [fanLoop, attStep]
    | pyObj => simp [fanLoop, attStep]

theorem process_success_download_env (env : Env) (D : Json → String → Bool)
    (issue_id : Nat) (skip dl : Bool) :
    (process_issue { env with download := D } issue_id skip dl).success
      = (process_issue env issue_id skip dl).success := by
  unfold process_issue
  by_cases hskip : (skip && env.fileExists issue_id) = true
  · simp [hskip]
  · rw [Bool.not_eq_true] at hskip
    simp only [hskip, Bool.false_eq_true, if_false]
    cases hfetch : get_issue (env.net issue_id) with
    | apiError => rfl
    | notFound => rfl
    | ok issue_data =>
      simp only []
      cases hsave : save_issue_json (env.openOk issue_id) issue_data with
      | osError => rfl
      | valueError p => rfl
      | saved c =>
        simp only []
        cases dl with
        | false => rfl
        | true =>
          simp only [if_true]
          cases hx : get_attachments_from_issue issue_data with
          | error e => rfl
          | ok atts =>
            simp only []
            by_cases hemp : atts.isEmpty = true
            · simp [hemp]
            · simp only [hemp, Bool.false_eq_true, if_false]
              have hflag := fanLoop_flag_env env D issue_id atts
                ⟨0, 0, []⟩ ⟨0, 0, []⟩
              cases h1 : fanLoop { env with download := D } issue_id atts
                  ⟨0, 0, []⟩ with
              | mk stA flagA =>
                cases h2 : fanLoop env issue_id atts ⟨0, 0, []⟩ with
                | mk stB flagB =>
                  rw [h1, h2] at hflag
                  simp only at hflag
                  subst hflag
                  cases flagA <;> rfl

/-- C1 (amended): when steps 1-3 succeed and the attachment fan-out
completes without raising, the issue's own result is success, and the
failure count reported to the log equals the number of
`download_attachment` calls that returned false PLUS the number of
extracted descriptors whose id is missing or falsy (those are counted as
failed without any download call — this extra term is what the original
claim misses); moreover the success result never depends on the download
oracle at all. -/
theorem process_issue_attachment_accounting
    (env : Env) (issue_id : Nat) (skip : Bool) (issue_data : Json)
    (w : String) (atts : List Json) (st : FanState)
    (hskip : (skip && env.fileExists issue_id) = false)
    (hfetch : get_issue (env.net issue_id) = .ok issue_data)
    (hsave : save_issue_json (env.openOk issue_id) issue_data = .saved w)
    (hatts : get_attachments_from_issue issue_data = .ok atts)
    (hloop : fanLoop env issue_id atts ⟨0, 0, []⟩ = (st, true)) :
    (process_issue env issue_id skip true).success = true ∧
    (process_issue env issue_id skip true).reportedFailed
      = countFalse (process_issue env issue_id skip true).downloadCalls
        + invalidIdCount atts ∧
    ∀ D, (process_issue { env with download := D } issue_id skip true).success
        = (process_issue env issue_id skip true).success := by
  refine ⟨?_, ?_, fun D => process_success_download_env env D issue_id skip true⟩
  · by_cases hemp : atts.isEmpty = true
    · simp [process_issue, hskip, hfetch, hsave, hatts, hemp]
    · simp [process_issue, hskip, hfetch, hsave, hatts, hemp, hloop]
  · obtain ⟨nc, hc, hf⟩ := fanLoop_counts env issue_id atts ⟨0, 0, []⟩ st hloop
    simp only [List.nil_append] at hc
    simp only at hf
    by_cases hemp : atts.isEmpty = true
    · have hnil : atts = [] := by
        cases atts with
        | nil => rfl
        | cons x xs => simp [List.isEmpty] at hemp
      subst hnil
      simp [process_issue, hskip, hfetch, hsave, hatts, countFalse,
        invalidIdCount]
    · simp only [process_issue, hskip, Bool.false_eq_true, if_false, hfetch,
        hsave, hatts, if_true, hemp, hloop]
      rw [hf, hc]
      omega

/-- C1 counterexample: on a document whose third attachment descriptor has
no id, `process_issue` reports 2 failed downloads while only 1
`download_attachment` call returned false — the reported count is not the
number of failed download calls. -/
theorem process_issue_miscounts :
    (process_issue envM 1 false true).success = true ∧
    (process_issue envM 1 false true).reportedFailed = 2 ∧
    (process_issue envM 1 false true).downloadCalls = [true, false] ∧
    (process_issue envM 1 false true).reportedFailed
      ≠ countFalse (process_issue envM 1 false true).downloadCalls := by
  refine ⟨rfl, rfl, rfl, by decide⟩

/-- The descriptors extracted from `docA`. -/
def attsA : List Json := [
  .obj [("id", .num 11), ("filename", .str "a.txt")],
  .obj [("id", .num 12)],
  .obj []]

/-- C1 witness: the amended accounting applied to `envM` and `docA`
(downloads: one success, one failure; one descriptor without id). -/
theorem process_issue_attachment_accounting_witness :
    ((false && envM.fileExists 1) = false ∧
      get_issue (envM.net 1) = .ok docA ∧
      save_issue_json (envM.openOk 1) docA = .saved (serialize docA) ∧
      get_attachments_from_issue docA = .ok attsA ∧
      fanLoop envM 1 attsA ⟨0, 0, []⟩ = (⟨1, 2, [true, false]⟩, true)) ∧
    (process_issue envM 1 false true).success = true ∧
    (process_issue envM 1 false true).reportedFailed
      = countFalse (process_issue envM 1 false true).downloadCalls
        + invalidIdCount attsA :=
  ⟨⟨rfl, rfl, rfl, rfl, rfl⟩,
    (process_issue_attachment_accounting envM 1 false docA (serialize docA)
      attsA ⟨1, 2, [true, false]⟩ rfl rfl rfl rfl rfl).1,
    (process_issue_attachment_accounting envM 1 false docA (serialize docA)
      attsA ⟨1, 2, [true, false]⟩ rfl rfl rfl rfl rfl).2.1⟩

/-! ## Claim C5: canonical form, deep equality, and a JSON parser

`canon` is the canonical form produced by re-parsing the key-sorted
serializer output: every object's entries appear in ascending key order.
`wfJson` singles out the values `response.json()` can actually produce:
no `pyObj`, and (as Python dicts guarantee) pairwise-distinct keys.
`deepEqual` models Python `==` on such values: arrays pointwise, dicts as
finite maps (entry order irrelevant); bool and int are distinct JSON
values in this model. -/

/-- Pairwise-distinct keys (Python dicts cannot repeat a key). -/
def keysDistinct : List (String × Json) → Bool
  | [] => true
  | kv :: kvs => !(kvs.any (fun p => p.1 == kv.1)) && keysDistinct kvs

mutual

/-- Canonical form: sort every object's entries by key, recursively. -/
def canon : Json → Json
  | .arr xs => .arr (canonList xs)
  | .obj kvs => .obj (sortEntries (canonEntries kvs))
  | j => j

def canonList : List Json → List Json
  | [] => []
  | x :: xs => canon x :: canonList xs

def canonEntries : List (String × Json) → List (String × Json)
  | [] => []
  | (k, v) :: kvs => (k, canon v) :: canonEntries kvs

end

mutual

/-- A value the remote parse can produce: serializable and with distinct
keys in every object. -/
def wfJson : Json → Bool
  | .null => true
  | .bool _ => true
  | .num _ => true
  | .str _ => true
  | .arr xs => wfList xs
  | .obj kvs => keysDistinct kvs && wfEntries kvs
  | .pyObj => false

def wfList : List Json → Bool
  | [] => true
  | x :: xs => wfJson x && wfList xs

def wfEntries : List (String × Json) → Bool
  | [] => true
  | kv :: kvs => wfJson kv.2 && wfEntries kvs

end

mutual

/-- Deep equality of parsed-JSON values (Python `==` on the output of
`json.loads`): arrays pointwise, objects as maps. -/
def deepEqual : Json → Json → Bool
  | .null, .null => true
  | .bool a, .bool b => a == b
  | .num a, .num b => a == b
  | .str a, .str b => a == b
  | .arr xs, .arr ys => deepEqualList xs ys
  | .obj a, .obj b => (a.length == b.length) && deepEqualSub a b
  | _, _ => false

def deepEqualList : List Json → List Json → Bool
  | [], [] => true
  | x :: xs, y :: ys => deepEqual x y && deepEqualList xs ys
  | _, _ => false

/-- Every entry of the first list has a matching entry in the second. -/
def deepEqualSub : List (String × Json) → List (String × Json) → Bool
  | [], _ => true
  | (k, v) :: rest, b =>
    (match b.find? (fun p => p.1 == k) with
     | some kv => deepEqual v kv.2
     | none => false) && deepEqualSub rest b

end

/-! ### The parser (model of `json.loads` on the serializer's output
format; numbers restricted to integers, `\uXXXX` escapes decoded as a
single scalar value) -/

/-- JSON whitespace. -/
def isWsChar (c : Char) : Bool :=
  c == ' ' || c == '\t' || c == '\n' || c == '\r'

/-- Skip whitespace. -/
def skipWs (cs : List Char) : List Char := cs.dropWhile isWsChar

/-- Value of one hex digit. -/
def hexVal (c : Char) : Option Nat :=
  if '0' ≤ c ∧ c ≤ '9' then some (c.toNat - 48)
  else if 'a' ≤ c ∧ c ≤ 'f' then some (c.toNat - 87)
  else if 'A' ≤ c ∧ c ≤ 'F' then some (c.toNat - 55)
  else none

/-- Parse the body of a string literal after the opening quote; `acc` is
the reversed content read so far.  Control characters must be escaped
(json.loads strict mode); surrogate-pair recombination is not modelled. -/
def parseStrAux : List Char → List Char → Option (String × List Char)
  | [], _ => none
  | '"' :: rest, acc => some (⟨acc.reverse⟩, rest)
  | '\\' :: 'u' :: h1 :: h2 :: h3 :: h4 :: rest, acc =>
    match hexVal h1, hexVal h2, hexVal h3, hexVal h4 with
    | some a, some b, some c, some d =>
      parseStrAux rest (Char.ofNat (4096 * a + 256 * b + 16 * c + d) :: acc)
    | _, _, _, _ => none
  | '\\' :: e :: rest, acc =>
    if e = '"' then parseStrAux rest ('"' :: acc)
    else if e = '\\' then parseStrAux rest ('\\' :: acc)
    else if e = '/' then parseStrAux rest ('/' :: acc)
    else if e = 'b' then parseStrAux rest ('\x08' :: acc)
    else if e = 'f' then parseStrAux rest ('\x0c' :: acc)
    else if e = 'n' then parseStrAux rest ('\n' :: acc)
    else if e = 'r' then parseStrAux rest ('\x0d' :: acc)
    else if e = 't' then parseStrAux rest ('\x09' :: acc)
    else none
  | c :: rest, acc =>
    if c.toNat < 32 then none else parseStrAux rest (c :: acc)

/-- Numeric value of a run of decimal digits. -/
def digitsVal (ds : List Char) : Nat :=
  ds.foldl (fun a c => 10 * a + (c.toNat - 48)) 0

/-- Parse a natural number (a non-empty maximal run of digits). -/
def parseNatNum (cs : List Char) : Option (Nat × List Char) :=
  let ds := cs.takeWhile Char.isDigit
  if ds.isEmpty then none else some (digitsVal ds, cs.drop ds.length)

/-- Parse an integer (what the serializer emits for `Json.num`). -/
def parseNum : List Char → Option (Json × List Char)
  | '-' :: cs => (parseNatNum cs).map (fun p => (Json.num (-(p.1 : Int)), p.2))
  | cs => (parseNatNum cs).map (fun p => (Json.num (p.1 : Int), p.2))

/-- Python dict insertion: an existing key is updated in place, a new key
is appended. -/
def insertUpd (kvs : List (String × Json)) (kv : String × Json) :
    List (String × Json) :=
  if kvs.any (fun p => p.1 == kv.1) then
    kvs.map (fun p => if p.1 == kv.1 then (p.1, kv.2) else p)
  else kvs ++ [kv]

/-- Build the dict from the parsed member list, in order. -/
def dictify (ms : List (String × Json)) : List (String × Json) :=
  ms.foldl insertUpd []

mutual

/-- Parse one JSON value; the first argument is recursion fuel (any fuel
at least the node count of the value suffices). -/
def parseVal : Nat → List Char → Option (Json × List Char)
  | 0, _ => none
  | f + 1, cs =>
    match cs with
    | '\x7b' :: rest =>
      match skipWs rest with
      | '\x7d' :: r => some (.obj [], r)
      | r => (parseMembers f r).map (fun p => (Json.obj (dictify p.1), p.2))
    | '[' :: rest =>
      match skipWs rest with
      | ']' :: r => some (.arr [], r)
      | r => (parseElems f r).map (fun p => (Json.arr p.1, p.2))
    | '"' :: rest => (parseStrAux rest []).map (fun p => (Json.str p.1, p.2))
    | 'n' :: 'u' :: 'l' :: 'l' :: rest => some (.null, rest)
    | 't' :: 'r' :: 'u' :: 'e' :: rest => some (.bool true, rest)
    | 'f' :: 'a' :: 'l' :: 's' :: 'e' :: rest => some (.bool false, rest)
    | cs' => parseNum cs'

/-- Parse the elements of a non-empty array body up to and through the
closing bracket. -/
def parseElems : Nat → List Char → Option (List Json × List Char)
  | 0, _ => none
  | f + 1, cs =>
    match parseVal f cs with
    | some (v, r) =>
      match skipWs r with
      | ',' :: r2 =>
        match parseElems f (skipWs r2) with
        | some (vs, r3) => some (v :: vs, r3)
        | none => none
      | ']' :: r2 => some ([v], r2)
      | _ => none
    | none => none

/-- Parse the members of a non-empty object body up to and through the
closing brace. -/
def parseMembers : Nat → List Char → Option (List (String × Json) × List Char)
  | 0, _ => none
  | f + 1, cs =>
    match cs with
    | '"' :: rest =>
      match parseStrAux rest [] with
      | some (k, r1) =>
        match skipWs r1 with
        | ':' :: r2 =>
          match parseVal f (skipWs r2) with
          | some (v, r3) =>
            match skipWs r3 with
            | ',' :: r4 =>
              match parseMembers f (skipWs r4) with
              | some (ms, r5) => some ((k, v) :: ms, r5)
              | none => none
            | '\x7d' :: r4 => some ([(k, v)], r4)
            | _ => none
          | none => none
        | _ => none
      | none => none
    | _ => none

end

/-- Model of `json.loads`: skip leading whitespace, parse one value,
require only whitespace after it. -/
def parseJson (s : String) : Option Json :=
  match parseVal (s.data.length + 1) (skipWs s.data) with
  | some (v, r) => if (skipWs r).isEmpty then some v else none
  | none => none

/-! ### Whitespace and boundary lemmas -/

/-- The continuation after a serialized number must not start with a
digit (in serializer output it is a separator, bracket or nothing). -/
def noDigitStart : List Char → Bool
  | [] => true
  | c :: _ => !c.isDigit

theorem skipWs_not_ws (c : Char) (l : List Char) (h : isWsChar c = false) :
    skipWs (c :: l) = c :: l := by
  simp [skipWs, List.dropWhile_cons, h]

theorem skipWs_indent (k : Nat) (l : List Char) :
    skipWs ('\n' :: (spc k ++ l)) = skipWs l := by
  show List.dropWhile isWsChar _ = _
  rw [List.dropWhile_cons]
  simp only [show isWsChar '\n' = true from rfl, if_true]
  exact dropWhile_replicate_append isWsChar ' ' rfl (2 * k) l

theorem ws_not_digit (c : Char) (h : isWsChar c = true) : c.isDigit = false := by
  simp only [isWsChar, Bool.or_eq_true, beq_iff_eq] at h
  rcases h with ((rfl | rfl) | rfl) | rfl <;> decide

theorem noDigitStart_of_skipWs (z : List Char) (c : Char) (r : List Char)
    (h : skipWs z = c :: r) (hc : c.isDigit = false) :
    noDigitStart z = true := by
  cases z with
  | nil => simp [skipWs] at h
  | cons d z' =>
    cases hw : isWsChar d
    · rw [skipWs_not_ws d z' hw] at h
      injection h with h1 _
      subst h1
      simp [noDigitStart, hc]
    · simp [noDigitStart, ws_not_digit d hw]

/-! ### String escape round trip -/

theorem hexVal_hexDigit (m : Nat) (h : m < 16) : hexVal (hexDigit m) = some m := by
  interval_cases m <;> decide

theorem escChars_cons (c : Char) (cs : List Char) :
    escChars (c :: cs) = escChar c ++ escChars cs := rfl

theorem parseStrAux_other (c : Char) (hq : ¬ c = '"') (hb : ¬ c = '\\')
    (hctl : ¬ c.toNat < 32) (l acc : List Char) :
    parseStrAux (c :: l) acc = parseStrAux l (c :: acc) := by
  rw [parseStrAux.eq_def]
  split
  · simp_all
  · simp_all
  · simp_all
  · simp_all
  · rename_i heq
    injection heq with heq1 heq2
    subst heq1
    subst heq2
    rw [if_neg hctl]

theorem parseStrAux_u (a b : Nat) (ha : a < 16) (hb : b < 16)
    (l acc : List Char) :
    parseStrAux ('\\' :: 'u' :: '0' :: '0' :: hexDigit a :: hexDigit b :: l) acc
      = parseStrAux l (Char.ofNat (16 * a + b) :: acc) := by
  have h1 := hexVal_hexDigit a ha
  have h2 := hexVal_hexDigit b hb
  show (match hexVal '0', hexVal '0', hexVal (hexDigit a), hexVal (hexDigit b) with
    | some x, some y, some z, some w =>
      parseStrAux l (Char.ofNat (4096 * x + 256 * y + 16 * z + w) :: acc)
    | _, _, _, _ => none) = _
  rw [h1, h2]
  show parseStrAux l (Char.ofNat (4096 * 0 + 256 * 0 + 16 * a + b) :: acc) = _
  norm_num

theorem parseStr_round : ∀ (s acc rest : List Char),
    parseStrAux (escChars s ++ '"' :: rest) acc
      = some (⟨acc.reverse ++ s⟩, rest) := by
  intro s
  induction s with
  | nil =>
    intro acc rest
    show parseStrAux ('"' :: rest) acc = _
    simp [parseStrAux]
  | cons c cs ih =>
    intro acc rest
    by_cases h1 : c = '\\'
    · subst h1
      have step : parseStrAux (escChars ('\\' :: cs) ++ '"' :: rest) acc
          = parseStrAux (escChars cs ++ '"' :: rest) ('\\' :: acc) := rfl
      rw [step, ih]
      simp
    · by_cases h2 : c = '"'
      · subst h2
        have step : parseStrAux (escChars ('"' :: cs) ++ '"' :: rest) acc
            = parseStrAux (escChars cs ++ '"' :: rest) ('"' :: acc) := rfl
        rw [step, ih]
        simp
      · by_cases h3 : c = '\x08'
        · subst h3
          have step : parseStrAux (escChars ('\x08' :: cs) ++ '"' :: rest) acc
              = parseStrAux (escChars cs ++ '"' :: rest) ('\x08' :: acc) := rfl
          rw [step, ih]
          simp
        · by_cases h4 : c = '\x09'
          · subst h4
            have step : parseStrAux (escChars ('\x09' :: cs) ++ '"' :: rest) acc
                = parseStrAux (escChars cs ++ '"' :: rest) ('\x09' :: acc) := rfl
            rw [step, ih]
            simp
          · by_cases h5 : c = '\x0a'
            · subst h5
              have step : parseStrAux (escChars ('\x0a' :: cs) ++ '"' :: rest) acc
                  = parseStrAux (escChars cs ++ '"' :: rest) ('\x0a' :: acc) := rfl
              rw [step, ih]
              simp
            · by_cases h6 : c = '\x0c'
              · subst h6
                have step : parseStrAux (escChars ('\x0c' :: cs) ++ '"' :: rest) acc
                    = parseStrAux (escChars cs ++ '"' :: rest) ('\x0c' :: acc) := rfl
                rw [step, ih]
                simp
              · by_cases h7 : c = '\x0d'
                · subst h7
                  have step : parseStrAux (escChars ('\x0d' :: cs) ++ '"' :: rest) acc
                      = parseStrAux (escChars cs ++ '"' :: rest) ('\x0d' :: acc) := rfl
                  rw [step, ih]
                  simp
                · by_cases h8 : c.toNat < 32
                  · have hesc : escChar c = ['\\', 'u', '0', '0',
                        hexDigit (c.toNat / 16), hexDigit (c.toNat % 16)] := by
                      simp [escChar, h1, h2, h3, h4, h5, h6, h7, h8]
                    rw [escChars_cons, hesc]
                    have hdiv : c.toNat / 16 < 16 := by omega
                    have hmod : c.toNat % 16 < 16 := by omega
                    have hstep := parseStrAux_u (c.toNat / 16) (c.toNat % 16)
                      hdiv hmod (escChars cs ++ '"' :: rest) acc
                    simp only [List.cons_append, List.nil_append,
                      List.append_assoc] at hstep ⊢
                    rw [hstep]
                    have hc : Char.ofNat (16 * (c.toNat / 16) + c.toNat % 16) = c := by
                      rw [Nat.div_add_mod]
                      exact Char.ofNat_toNat c
                    rw [hc, ih]
                    simp
                  · have hesc : escChar c = [c] := by
                      simp [escChar, h1, h2, h3, h4, h5, h6, h7, h8]
                    rw [escChars_cons, hesc]
                    simp only [List.singleton_append, List.cons_append,
                      List.nil_append]
                    rw [parseStrAux_other c h2 h1 h8 (escChars cs ++ '"' :: rest) acc]
                    rw [ih (c :: acc) rest]
                    simp

/-! ### Number round trip -/

theorem digitChar_isDigit (d : Nat) (h : d < 10) :
    (digitChar d).isDigit = true := by
  interval_cases d <;> decide

theorem digitChar_toNat (d : Nat) (h : d < 10) :
    (digitChar d).toNat = 48 + d := by
  interval_cases d <;> decide

theorem natDigitsAux_digits : ∀ (fuel n : Nat),
    ∀ c ∈ natDigitsAux fuel n, c.isDigit = true := by
  intro fuel
  induction fuel with
  | zero => intro n c hc; simp [natDigitsAux] at hc
  | succ f ih =>
    intro n c hc
    by_cases hn : n = 0
    · simp [natDigitsAux, hn] at hc
    · simp only [natDigitsAux, hn, if_false, List.mem_append,
        List.mem_singleton] at hc
      rcases hc with hc | rfl
      · exact ih (n / 10) c hc
      · exact digitChar_isDigit _ (Nat.mod_lt n (by omega))

theorem natChars_digits (n : Nat) : ∀ c ∈ natChars n, c.isDigit = true := by
  intro c hc
  by_cases hn : n = 0
  · simp [natChars, hn] at hc
    subst hc; decide
  · simp only [natChars, hn, if_false] at hc
    exact natDigitsAux_digits (n + 1) n c hc

theorem natChars_ne_nil (n : Nat) : natChars n ≠ [] := by
  by_cases hn : n = 0
  · simp [natChars, hn]
  · simp only [natChars, hn, if_false]
    cases hfn : natDigitsAux (n + 1) n with
    | nil =>
      exfalso
      simp only [natDigitsAux, hn, if_false] at hfn
      exact absurd hfn (by simp)
    | cons c t => simp

theorem natDigitsAux_foldl : ∀ (fuel n : Nat), n ≤ fuel → ∀ acc : Nat,
    List.foldl (fun a c => 10 * a + (c.toNat - 48)) acc (natDigitsAux fuel n)
      = acc * 10 ^ (natDigitsAux fuel n).length + n := by
  intro fuel
  induction fuel with
  | zero =>
    intro n hn acc
    have : n = 0 := by omega
    subst this
    simp [natDigitsAux]
  | succ f ih =>
    intro n hn acc
    by_cases h0 : n = 0
    · subst h0; simp [natDigitsAux]
    · simp only [natDigitsAux, h0, if_false]
      rw [List.foldl_append]
      have hd : n / 10 ≤ f := by
        have := Nat.div_lt_self (by omega : 0 < n) (by omega : 1 < 10)
        omega
      rw [ih (n / 10) hd acc]
      simp only [List.foldl_cons, List.foldl_nil, List.length_append,
        List.length_singleton]
      rw [digitChar_toNat _ (Nat.mod_lt n (by omega))]
      have hmod : 48 + n % 10 - 48 = n % 10 := by omega
      rw [hmod, pow_succ]
      have hdm := Nat.div_add_mod n 10
      ring_nf
      omega

theorem digitsVal_natChars (n : Nat) : digitsVal (natChars n) = n := by
  by_cases hn : n = 0
  · subst hn; decide
  · simp only [natChars, hn, if_false, digitsVal]
    rw [natDigitsAux_foldl (n + 1) n (by omega) 0]
    simp

theorem takeWhile_append_all (p : Char → Bool) :
    ∀ (l r : List Char), (∀ c ∈ l, p c = true) →
      (l ++ r).takeWhile p = l ++ r.takeWhile p := by
  intro l
  induction l with
  | nil => intro r _; rfl
  | cons c t ih =>
    intro r h
    simp only [List.cons_append, List.takeWhile_cons, h c (by simp), if_true]
    rw [ih r (fun x hx => h x (by simp [hx]))]

theorem takeWhile_nil_of_head (p : Char → Bool) (r : List Char)
    (h : ∀ c t, r = c :: t → p c = false) : r.takeWhile p = [] := by
  cases r with
  | nil => rfl
  | cons c t => simp [List.takeWhile_cons, h c t rfl]

theorem parseNatNum_round (n : Nat) (rest : List Char)
    (hrest : noDigitStart rest = true) :
    parseNatNum (natChars n ++ rest) = some (n, rest) := by
  have htake : (natChars n ++ rest).takeWhile Char.isDigit = natChars n := by
    rw [takeWhile_append_all Char.isDigit (natChars n) rest (natChars_digits n)]
    have : rest.takeWhile Char.isDigit = [] := by
      apply takeWhile_nil_of_head
      intro c t hct
      subst hct
      simp [noDigitStart] at hrest
      exact hrest
    rw [this, List.append_nil]
  simp only [parseNatNum, htake]
  have hne : (natChars n).isEmpty = false := by
    cases h : natChars n with
    | nil => exact absurd h (natChars_ne_nil n)
    | cons c t => rfl
  rw [hne]
  simp only [Bool.false_eq_true, if_false]
  rw [digitsVal_natChars, List.drop_left]

theorem parseNum_not_neg (c : Char) (t : List Char) (hc : ¬ c = '-') :
    parseNum (c :: t)
      = (parseNatNum (c :: t)).map (fun p => (Json.num (p.1 : Int), p.2)) := by
  rw [parseNum.eq_def]
  split
  · simp_all
  · rfl

theorem parseNum_round (n : Int) (rest : List Char)
    (hrest : noDigitStart rest = true) :
    parseNum (intChars n ++ rest) = some (.num n, rest) := by
  cases n with
  | ofNat m =>
    show parseNum (natChars m ++ rest) = _
    cases hnc : natChars m with
    | nil => exact absurd hnc (natChars_ne_nil m)
    | cons c t =>
      have hcd : c.isDigit = true := natChars_digits m c (by rw [hnc]; simp)
      have hcne : ¬ c = '-' := by
        intro h; subst h; exact absurd hcd (by decide)
      simp only [List.cons_append]
      rw [parseNum_not_neg c (t ++ rest) hcne]
      have hp : parseNatNum (c :: (t ++ rest)) = some (m, rest) := by
        have hr := parseNatNum_round m rest hrest
        rw [hnc] at hr
        simpa using hr
      rw [hp]
      rfl
  | negSucc m =>
    have step : parseNum (intChars (Int.negSucc m) ++ rest)
        = (parseNatNum (natChars (m + 1) ++ rest)).map
            (fun p => (Json.num (-(p.1 : Int)), p.2)) := rfl
    rw [step, parseNatNum_round (m + 1) rest hrest]
    simp only [Option.map_some']
    have : (-(((m : Nat) + 1 : Nat) : Int)) = Int.negSucc m := by
      simp [Int.negSucc_eq]
    rw [show ((Int.negSucc m) : Int) = -(((m + 1 : Nat) : Nat) : Int) from by
      simp [Int.negSucc_eq]]

/-! ### Shapes of the serializer output for the parse induction -/

/-- The characters of a non-empty array body: the serialized elements
separated by `",\n" ++ indent`. -/
def elemsEnc (ind : Nat) : List Json → List Char
  | [] => []
  | [x] => (dumpVal ind x).1
  | x :: xs => (dumpVal ind x).1 ++ ',' :: '\n' :: (spc ind ++ elemsEnc ind xs)

/-- The characters of a non-empty object body: `"key": value` members
separated by `",\n" ++ indent`. -/
def membersEnc (ind : Nat) : List (String × Json) → List Char
  | [] => []
  | [(k, v)] => qstr k ++ ':' :: ' ' :: (dumpVal ind v).1
  | (k, v) :: kvs =>
    qstr k ++ ':' :: ' ' ::
      ((dumpVal ind v).1 ++ ',' :: '\n' :: (spc ind ++ membersEnc ind kvs))

theorem joinArr_elems (ind : Nat) : ∀ (xs : List Json),
    (∀ y ∈ xs, (dumpVal ind y).2 = true) →
    joinArr ind (dumpElems ind xs)
      = (match xs with
         | [] => ([], true)
         | _ :: _ => (',' :: '\n' :: (spc ind ++ elemsEnc ind xs), true)) := by
  intro xs
  induction xs with
  | nil => intro _; rfl
  | cons y ys ih =>
    intro h
    have hy : (dumpVal ind y).2 = true := h y (by simp)
    simp only [dumpElems, joinArr]
    cases hd : dumpVal ind y with
    | mk s ok =>
      rw [hd] at hy
      subst hy
      simp only [if_true]
      rw [ih (fun z hz => h z (by simp [hz]))]
      cases ys with
      | nil => simp [elemsEnc, hd]
      | cons z zs =>
        simp only []
        simp [elemsEnc, hd, List.append_assoc]

theorem dumpArr_shape (ind : Nat) (x : Json) (xs : List Json)
    (h : ∀ y ∈ x :: xs, (dumpVal (ind + 1) y).2 = true) :
    dumpVal ind (.arr (x :: xs))
      = ('[' :: '\n' ::
          (spc (ind + 1) ++ elemsEnc (ind + 1) (x :: xs)
            ++ '\n' :: (spc ind ++ [']'])), true) := by
  have hx : (dumpVal (ind + 1) x).2 = true := h x (by simp)
  show dumpArrAssemble ind (dumpVal (ind + 1) x :: dumpElems (ind + 1) xs) = _
  cases hd : dumpVal (ind + 1) x with
  | mk s ok =>
    rw [hd] at hx
    subst hx
    simp only [dumpArrAssemble, if_true]
    rw [joinArr_elems (ind + 1) xs (fun z hz => h z (by simp [hz]))]
    cases xs with
    | nil => simp [elemsEnc, hd]
    | cons z zs => simp [elemsEnc, hd, List.append_assoc]

theorem joinObj_members (ind : Nat) : ∀ (kvs : List (String × Json)),
    (∀ kv ∈ kvs, (dumpVal ind kv.2).2 = true) →
    joinObj ind (dumpEntries ind kvs)
      = (match kvs with
         | [] => ([], true)
         | _ :: _ => (',' :: '\n' :: (spc ind ++ membersEnc ind kvs), true)) := by
  intro kvs
  induction kvs with
  | nil => intro _; rfl
  | cons kv rest ih =>
    intro h
    obtain ⟨k, v⟩ := kv
    have hv : (dumpVal ind v).2 = true := h (k, v) (by simp)
    simp only [dumpEntries, joinObj]
    cases hd : dumpVal ind v with
    | mk s ok =>
      rw [hd] at hv
      subst hv
      simp only [if_true]
      rw [ih (fun z hz => h z (by simp [hz]))]
      cases rest with
      | nil => simp [membersEnc, hd]
      | cons z zs =>
        simp only []
        simp [membersEnc, hd, List.append_assoc]

theorem dumpObj_shape_sorted (ind : Nat) (kv : String × Json)
    (kvs : List (String × Json))
    (h : ∀ p ∈ kv :: kvs, (dumpVal (ind + 1) p.2).2 = true) :
    dumpObjAssemble ind (dumpEntries (ind + 1) (kv :: kvs))
      = ('\x7b' :: '\n' ::
          (spc (ind + 1) ++ membersEnc (ind + 1) (kv :: kvs)
            ++ '\n' :: (spc ind ++ ['\x7d'])), true) := by
  obtain ⟨k, v⟩ := kv
  have hv : (dumpVal (ind + 1) v).2 = true := h (k, v) (by simp)
  show dumpObjAssemble ind ((k, dumpVal (ind + 1) v) :: dumpEntries (ind + 1) kvs) = _
  cases hd : dumpVal (ind + 1) v with
  | mk s ok =>
    rw [hd] at hv
    subst hv
    simp only [dumpObjAssemble, if_true]
    rw [joinObj_members (ind + 1) kvs (fun z hz => h z (by simp [hz]))]
    cases kvs with
    | nil => simp [membersEnc, hd]
    | cons z zs => simp [membersEnc, hd, List.append_assoc]

theorem digit_not_special (c : Char) (h : c.isDigit = true) :
    isWsChar c = false ∧ ¬ c = ']' ∧ ¬ c = '\x7d' := by
  refine ⟨?_, ?_, ?_⟩
  · cases hw : isWsChar c
    · rfl
    · exact absurd h (by simp [ws_not_digit c hw])
  · intro hq; subst hq; exact absurd h (by decide)
  · intro hq; subst hq; exact absurd h (by decide)

theorem dumpArrAssemble_head (ind : Nat) (ps : List (List Char × Bool)) :
    ∃ z, (dumpArrAssemble ind ps).1 = '[' :: z := by
  cases ps with
  | nil => exact ⟨[']'], rfl⟩
  | cons p rest =>
    obtain ⟨s, ok⟩ := p
    cases ok
    · exact ⟨_, rfl⟩
    · simp only [dumpArrAssemble, if_true]
      cases hj : joinArr (ind + 1) rest with
      | mk t ok2 =>
        cases ok2 <;> simp

theorem dumpObjAssemble_head (ind : Nat) (ps : List (String × (List Char × Bool))) :
    ∃ z, (dumpObjAssemble ind ps).1 = '\x7b' :: z := by
  cases ps with
  | nil => exact ⟨['\x7d'], rfl⟩
  | cons p rest =>
    obtain ⟨k, s, ok⟩ := p
    cases ok
    · exact ⟨_, rfl⟩
    · simp only [dumpObjAssemble, if_true]
      cases hj : joinObj (ind + 1) rest with
      | mk t ok2 =>
        cases ok2 <;> simp

theorem dump_head (ind : Nat) (d : Json) (hwf : wfJson d = true) :
    ∃ c z, (dumpVal ind d).1 = c :: z ∧ isWsChar c = false
      ∧ ¬ c = ']' ∧ ¬ c = '\x7d' := by
  cases d with
  | null => exact ⟨'n', _, rfl, by decide, by decide, by decide⟩
  | bool b =>
    cases b
    · exact ⟨'f', _, rfl, by decide, by decide, by decide⟩
    · exact ⟨'t', _, rfl, by decide, by decide, by decide⟩
  | num n =>
    cases n with
    | ofNat m =>
      cases hnc : natChars m with
      | nil => exact absurd hnc (natChars_ne_nil m)
      | cons c t =>
        have hcd : c.isDigit = true := natChars_digits m c (by rw [hnc]; simp)
        obtain ⟨hw, h1, h2⟩ := digit_not_special c hcd
        exact ⟨c, t, by show intChars (Int.ofNat m) = _; rw [show intChars (Int.ofNat m) = natChars m from rfl, hnc], hw, h1, h2⟩
    | negSucc m =>
      exact ⟨'-', _, rfl, by decide, by decide, by decide⟩
  | str s => exact ⟨'"', _, rfl, by decide, by decide, by decide⟩
  | arr xs =>
    obtain ⟨z, hz⟩ := dumpArrAssemble_head ind (dumpElems (ind + 1) xs)
    exact ⟨'[', z, hz, by decide, by decide, by decide⟩
  | obj kvs =>
    obtain ⟨z, hz⟩ := dumpObjAssemble_head ind (sortEntries (dumpEntries (ind + 1) kvs))
    exact ⟨'\x7b', z, hz, by decide, by decide, by decide⟩
  | pyObj => simp [wfJson] at hwf

theorem skipWs_dump (ind : Nat) (d : Json) (hwf : wfJson d = true)
    (tail : List Char) :
    skipWs ((dumpVal ind d).1 ++ tail) = (dumpVal ind d).1 ++ tail := by
  obtain ⟨c, z, hz, hw, _, _⟩ := dump_head ind d hwf
  rw [hz, List.cons_append, skipWs_not_ws c (z ++ tail) hw]

/-! ### Dispatch lemmas for `parseVal` and assoc-list support -/

theorem mk_data_eq (s : String) : String.mk s.data = s := by cases s; rfl

set_option maxHeartbeats 2000000 in
theorem parseVal_num_dispatch (f : Nat) (c : Char) (t : List Char)
    (hc : c.isDigit = true ∨ c = '-') :
    parseVal (f + 1) (c :: t) = parseNum (c :: t) := by
  rw [parseVal.eq_def]
  split
  · omega
  · rename_i f2 heq
    injection heq with hf
    subst hf
    split
    · rename_i heq2
      injection heq2 with h1 h2
      subst h1
      rcases hc with hd | he
      · exact absurd hd (by decide)
      · exact absurd he (by decide)
    · rename_i heq2
      injection heq2 with h1 h2
      subst h1
      rcases hc with hd | he
      · exact absurd hd (by decide)
      · exact absurd he (by decide)
    · rename_i heq2
      injection heq2 with h1 h2
      subst h1
      rcases hc with hd | he
      · exact absurd hd (by decide)
      · exact absurd he (by decide)
    · rename_i heq2
      injection heq2 with h1 h2
      subst h1
      rcases hc with hd | he
      · exact absurd hd (by decide)
      · exact absurd he (by decide)
    · rename_i heq2
      injection heq2 with h1 h2
      subst h1
      rcases hc with hd | he
      · exact absurd hd (by decide)
      · exact absurd he (by decide)
    · rename_i heq2
      injection heq2 with h1 h2
      subst h1
      rcases hc with hd | he
      · exact absurd hd (by decide)
      · exact absurd he (by decide)
    · rfl

theorem parseVal_quote (f : Nat) (l : List Char) :
    parseVal (f + 1) ('"' :: l)
      = (parseStrAux l []).map (fun p => (Json.str p.1, p.2)) := rfl

theorem parseVal_lbrack (f : Nat) (l : List Char) :
    parseVal (f + 1) ('[' :: l)
      = match skipWs l with
        | ']' :: r => some (.arr [], r)
        | r => (parseElems f r).map (fun p => (Json.arr p.1, p.2)) := rfl

theorem parseVal_lbrace (f : Nat) (l : List Char) :
    parseVal (f + 1) ('\x7b' :: l)
      = match skipWs l with
        | '\x7d' :: r => some (.obj [], r)
        | r => (parseMembers f r).map (fun p => (Json.obj (dictify p.1), p.2)) := rfl

theorem parseVal_null (f : Nat) (rest : List Char) :
    parseVal (f + 1) ('n' :: 'u' :: 'l' :: 'l' :: rest) = some (.null, rest) := rfl

theorem parseVal_true (f : Nat) (rest : List Char) :
    parseVal (f + 1) ('t' :: 'r' :: 'u' :: 'e' :: rest)
      = some (.bool true, rest) := rfl

theorem parseVal_false (f : Nat) (rest : List Char) :
    parseVal (f + 1) ('f' :: 'a' :: 'l' :: 's' :: 'e' :: rest)
      = some (.bool false, rest) := rfl

theorem parseElems_succ (f : Nat) (cs : List Char) :
    parseElems (f + 1) cs
      = match parseVal f cs with
        | some (v, r) =>
          match skipWs r with
          | ',' :: r2 =>
            match parseElems f (skipWs r2) with
            | some (vs, r3) => some (v :: vs, r3)
            | none => none
          | ']' :: r2 => some ([v], r2)
          | _ => none
        | none => none := rfl

theorem parseMembers_succ (f : Nat) (cs : List Char) :
    parseMembers (f + 1) cs
      = match cs with
        | '"' :: rest =>
          match parseStrAux rest [] with
          | some (k, r1) =>
            match skipWs r1 with
            | ':' :: r2 =>
              match parseVal f (skipWs r2) with
              | some (v, r3) =>
                match skipWs r3 with
                | ',' :: r4 =>
                  match parseMembers f (skipWs r4) with
                  | some (ms, r5) => some ((k, v) :: ms, r5)
                  | none => none
                | '\x7d' :: r4 => some ([(k, v)], r4)
                | _ => none
              | none => none
            | _ => none
          | none => none
        | _ => none := rfl

theorem skipWs_elemsEnc (ind : Nat) (y : Json) (zs : List Json)
    (hwy : wfJson y = true) (tail : List Char) :
    skipWs (elemsEnc ind (y :: zs) ++ tail) = elemsEnc ind (y :: zs) ++ tail := by
  cases zs with
  | nil => exact skipWs_dump ind y hwy tail
  | cons z zs' =>
    show skipWs (((dumpVal ind y).1 ++ _) ++ tail) = _
    rw [List.append_assoc]
    rw [skipWs_dump ind y hwy _]
    simp [elemsEnc, List.append_assoc]

theorem noDigitStart_cons (c : Char) (l : List Char) (h : c.isDigit = false) :
    noDigitStart (c :: l) = true := by
  simp [noDigitStart, h]

theorem parseElems_round : ∀ (xs : List Json), xs ≠ [] →
    (∀ x ∈ xs, wfJson x = true ∧
      ∀ f ind rest, jsize x ≤ f → noDigitStart rest = true →
        parseVal f ((dumpVal ind x).1 ++ rest) = some (canon x, rest)) →
    ∀ (f ind : Nat) (tail rest : List Char), jsizeList xs ≤ f →
      skipWs tail = ']' :: rest →
      parseElems f (elemsEnc ind xs ++ tail) = some (canonList xs, rest) := by
  intro xs
  induction xs with
  | nil => intro h; exact absurd rfl h
  | cons x ys ih =>
    intro _ hRT f ind tail rest hf htail
    obtain ⟨hwx, hRTx⟩ := hRT x (by simp)
    cases f with
    | zero => simp only [jsizeList] at hf; omega
    | succ f' =>
      have hfx : jsize x ≤ f' := by simp only [jsizeList] at hf; omega
      cases ys with
      | nil =>
        show parseElems (f' + 1) ((dumpVal ind x).1 ++ tail) = _
        rw [parseElems_succ]
        have hnd : noDigitStart tail = true :=
          noDigitStart_of_skipWs tail ']' rest htail (by decide)
        rw [hRTx f' ind tail hfx hnd]
        simp only []
        rw [htail]
        rfl
      | cons y zs =>
        show parseElems (f' + 1)
          (((dumpVal ind x).1 ++ ',' :: '\n' :: (spc ind ++ elemsEnc ind (y :: zs)))
            ++ tail) = _
        rw [parseElems_succ, List.append_assoc]
        simp only [List.cons_append]
        rw [List.append_assoc]
        rw [hRTx f' ind (',' :: '\n' :: (spc ind ++ (elemsEnc ind (y :: zs) ++ tail)))
          hfx (noDigitStart_cons ',' _ (by decide))]
        simp only []
        rw [skipWs_not_ws ',' _ (by decide)]
        simp only []
        rw [skipWs_indent ind (elemsEnc ind (y :: zs) ++ tail)]
        have hwy : wfJson y = true := (hRT y (by simp)).1
        rw [skipWs_elemsEnc ind y zs hwy tail]
        rw [ih (by simp) (fun z hz => hRT z (by simp [hz])) f' ind tail rest
          (by simp only [jsizeList] at hf ⊢; omega) htail]
        rfl

theorem skipWs_space (l : List Char) : skipWs (' ' :: l) = skipWs l := by
  simp [skipWs, List.dropWhile_cons, show isWsChar ' ' = true from rfl]

theorem parseKey (k : String) (y : List Char) :
    parseStrAux (escChars k.data ++ '"' :: y) [] = some (k, y) := by
  rw [parseStr_round k.data [] y]
  simp [mk_data_eq]

theorem skipWs_membersEnc (ind : Nat) (kv : String × Json)
    (kvs : List (String × Json)) (tail : List Char) :
    skipWs (membersEnc ind (kv :: kvs) ++ tail)
      = membersEnc ind (kv :: kvs) ++ tail := by
  obtain ⟨k, v⟩ := kv
  cases kvs with
  | nil =>
    show skipWs (((qstr k ++ _) : List Char) ++ tail) = _
    simp only [qstr, List.cons_append]
    rw [skipWs_not_ws '"' _ (by decide)]
    simp [membersEnc, qstr, List.append_assoc, List.cons_append]
  | cons z zs =>
    show skipWs (((qstr k ++ _) : List Char) ++ tail) = _
    simp only [qstr, List.cons_append]
    rw [skipWs_not_ws '"' _ (by decide)]
    simp [membersEnc, qstr, List.append_assoc, List.cons_append]

theorem parseMembers_round : ∀ (kvs : List (String × Json)), kvs ≠ [] →
    (∀ kv ∈ kvs, wfJson kv.2 = true ∧
      ∀ f ind rest, jsize kv.2 ≤ f → noDigitStart rest = true →
        parseVal f ((dumpVal ind kv.2).1 ++ rest) = some (canon kv.2, rest)) →
    ∀ (f ind : Nat) (tail rest : List Char), jsizeEntries kvs ≤ f →
      skipWs tail = '\x7d' :: rest →
      parseMembers f (membersEnc ind kvs ++ tail)
        = some (kvs.map (fun kv => (kv.1, canon kv.2)), rest) := by
  intro kvs
  induction kvs with
  | nil => intro h; exact absurd rfl h
  | cons kv ys ih =>
    intro _ hRT f ind tail rest hf htail
    obtain ⟨k, v⟩ := kv
    obtain ⟨hwv, hRTv⟩ := hRT (k, v) (by simp)
    cases f with
    | zero => simp only [jsizeEntries] at hf; omega
    | succ f' =>
      have hfv : jsize v ≤ f' := by simp only [jsizeEntries] at hf; omega
      cases ys with
      | nil =>
        show parseMembers (f' + 1)
          ((qstr k ++ ':' :: ' ' :: (dumpVal ind v).1) ++ tail) = _
        rw [parseMembers_succ]
        simp only [qstr, List.cons_append, List.append_assoc,
          List.singleton_append, List.nil_append]
        rw [parseKey k (':' :: ' ' :: ((dumpVal ind v).1 ++ tail))]
        simp only []
        rw [skipWs_not_ws ':' _ (by decide)]
        simp only []
        rw [skipWs_space, skipWs_dump ind v hwv tail]
        have hnd : noDigitStart tail = true :=
          noDigitStart_of_skipWs tail '\x7d' rest htail (by decide)
        rw [hRTv f' ind tail hfv hnd]
        simp only []
        rw [htail]
        rfl
      | cons kv2 zs =>
        show parseMembers (f' + 1)
          ((qstr k ++ ':' :: ' ' ::
            ((dumpVal ind v).1 ++ ',' :: '\n' :: (spc ind ++ membersEnc ind (kv2 :: zs))))
            ++ tail) = _
        rw [parseMembers_succ]
        simp only [qstr, List.cons_append, List.append_assoc,
          List.singleton_append, List.nil_append]
        rw [parseKey k (':' :: ' ' ::
          ((dumpVal ind v).1 ++ (',' :: '\n' :: (spc ind ++
            (membersEnc ind (kv2 :: zs) ++ tail)))))]
        simp only []
        rw [skipWs_not_ws ':' _ (by decide)]
        simp only []
        rw [skipWs_space, skipWs_dump ind v hwv _]
        rw [hRTv f' ind (',' :: '\n' :: (spc ind ++ (membersEnc ind (kv2 :: zs) ++ tail)))
          hfv (noDigitStart_cons ',' _ (by decide))]
        simp only []
        rw [skipWs_not_ws ',' _ (by decide)]
        simp only []
        rw [skipWs_indent ind (membersEnc ind (kv2 :: zs) ++ tail)]
        rw [skipWs_membersEnc ind kv2 zs tail]
        rw [ih (by simp) (fun z hz => hRT z (by simp [hz])) f' ind tail rest
          (by simp only [jsizeEntries] at hf ⊢; omega) htail]
        rfl

/-! ### Sorted-entries support -/

theorem keyLe_total (a b : String × Json) :
    (fun p q : String × Json => strLe p.1 q.1) a b = false →
    (fun p q : String × Json => strLe p.1 q.1) b a = true := by
  intro h
  exact lexLe_total a.1.data b.1.data h

theorem keyLe_trans (a b c : String × Json) :
    (fun p q : String × Json => strLe p.1 q.1) a b = true →
    (fun p q : String × Json => strLe p.1 q.1) b c = true →
    (fun p q : String × Json => strLe p.1 q.1) a c = true := by
  intro h1 h2
  exact lexLe_trans a.1.data b.1.data c.1.data h1 h2

theorem sortEntries_perm (l : List (String × Json)) : (sortEntries l).Perm l :=
  sortBy_perm _ l

theorem jsizeEntries_perm {l₁ l₂ : List (String × Json)} (h : l₁.Perm l₂) :
    jsizeEntries l₁ = jsizeEntries l₂ := by
  induction h with
  | nil => rfl
  | cons x _ ih => simp only [jsizeEntries]; omega
  | swap x y l => simp only [jsizeEntries]; omega
  | trans _ _ ih1 ih2 => omega

theorem keysDistinct_iff_nodup (l : List (String × Json)) :
    keysDistinct l = true ↔ (l.map Prod.fst).Nodup := by
  induction l with
  | nil => simp [keysDistinct]
  | cons kv kvs ih =>
    simp only [keysDistinct, Bool.and_eq_true, Bool.not_eq_true',
      List.map_cons, List.nodup_cons, ih]
    constructor
    · rintro ⟨h1, h2⟩
      refine ⟨?_, h2⟩
      intro hmem
      obtain ⟨p, hp, hpk⟩ := List.mem_map.mp hmem
      have : kvs.any (fun p => p.1 == kv.1) = true :=
        List.any_eq_true.mpr ⟨p, hp, by simp [hpk]⟩
      rw [this] at h1
      cases h1
    · rintro ⟨h1, h2⟩
      refine ⟨?_, h2⟩
      cases hany : kvs.any (fun p => p.1 == kv.1)
      · rfl
      · obtain ⟨p, hp, hpk⟩ := List.any_eq_true.mp hany
        simp only [beq_iff_eq] at hpk
        exact absurd (List.mem_map.mpr ⟨p, hp, hpk⟩) h1

theorem keysDistinct_perm {l₁ l₂ : List (String × Json)} (h : l₁.Perm l₂) :
    keysDistinct l₁ = keysDistinct l₂ := by
  have hm := (h.map Prod.fst).nodup_iff
  cases h1 : keysDistinct l₁ <;> cases h2 : keysDistinct l₂ <;> try rfl
  · rw [keysDistinct_iff_nodup] at h2
    have := (keysDistinct_iff_nodup l₁).mpr (hm.mpr h2)
    rw [h1] at this
    cases this
  · rw [keysDistinct_iff_nodup] at h1
    have := (keysDistinct_iff_nodup l₂).mpr (hm.mp h1)
    rw [h2] at this
    cases this

theorem insertBy_map_key (le : α → α → Bool) (le' : β → β → Bool) (g : α → β)
    (hg : ∀ a b, le' (g a) (g b) = le a b) (x : α) :
    ∀ l : List α, insertBy le' (g x) (l.map g) = (insertBy le x l).map g := by
  intro l
  induction l with
  | nil => rfl
  | cons y ys ih =>
    simp only [List.map_cons, insertBy, hg]
    by_cases h : le x y = true
    · simp [h]
    · rw [Bool.not_eq_true] at h
      simp [h, ih]

theorem sortBy_map_key (le : α → α → Bool) (le' : β → β → Bool) (g : α → β)
    (hg : ∀ a b, le' (g a) (g b) = le a b) :
    ∀ l : List α, sortBy le' (l.map g) = (sortBy le l).map g := by
  intro l
  induction l with
  | nil => rfl
  | cons y ys ih =>
    simp only [List.map_cons, sortBy, ih]
    exact insertBy_map_key le le' g hg y (sortBy le ys)

theorem dumpEntries_eq_map (ind : Nat) : ∀ l : List (String × Json),
    dumpEntries ind l = l.map (fun kv => (kv.1, dumpVal ind kv.2)) := by
  intro l
  induction l with
  | nil => rfl
  | cons kv kvs ih =>
    obtain ⟨k, v⟩ := kv
    simp [dumpEntries, ih]

theorem canonEntries_eq_map : ∀ l : List (String × Json),
    canonEntries l = l.map (fun kv => (kv.1, canon kv.2)) := by
  intro l
  induction l with
  | nil => rfl
  | cons kv kvs ih =>
    obtain ⟨k, v⟩ := kv
    simp [canonEntries, ih]

theorem sortEntries_dumpEntries (ind : Nat) (kvs : List (String × Json)) :
    sortEntries (dumpEntries ind kvs) = dumpEntries ind (sortEntries kvs) := by
  rw [dumpEntries_eq_map, dumpEntries_eq_map]
  exact sortBy_map_key (fun p q : String × Json => strLe p.1 q.1)
    (fun p q : String × (List Char × Bool) => strLe p.1 q.1) _ (fun a b => rfl) kvs

theorem sortEntries_canonEntries (kvs : List (String × Json)) :
    sortEntries (canonEntries kvs) = canonEntries (sortEntries kvs) := by
  rw [canonEntries_eq_map, canonEntries_eq_map]
  exact sortBy_map_key (fun p q : String × Json => strLe p.1 q.1)
    (fun p q : String × Json => strLe p.1 q.1)
    (fun kv => (kv.1, canon kv.2)) (fun a b => rfl) kvs

theorem sortEntries_idem (l : List (String × Json)) :
    sortEntries (sortEntries l) = sortEntries l :=
  sortBy_of_pairwise _ _ (sortBy_pairwise _ keyLe_total keyLe_trans l)

theorem find?_of_mem_distinct (k : String) (v : Json) :
    ∀ kvs : List (String × Json), keysDistinct kvs = true → (k, v) ∈ kvs →
      kvs.find? (fun p => p.1 == k) = some (k, v) := by
  intro kvs
  induction kvs with
  | nil => intro _ h; cases h
  | cons kv rest ih =>
    intro hd hmem
    simp only [keysDistinct, Bool.and_eq_true, Bool.not_eq_true'] at hd
    obtain ⟨hany, hrest⟩ := hd
    rcases List.mem_cons.mp hmem with heq | hmem'
    · subst heq
      simp [List.find?_cons]
    · have hne : (kv.1 == k) = false := by
        cases hbe : kv.1 == k
        · rfl
        · simp only [beq_iff_eq] at hbe
          have : rest.any (fun p => p.1 == kv.1) = true :=
            List.any_eq_true.mpr ⟨(k, v), hmem', by simp [hbe]⟩
          rw [this] at hany
          cases hany
      simp only [List.find?_cons, hne]
      exact ih hrest hmem'

theorem dictify_aux : ∀ (ms acc : List (String × Json)),
    keysDistinct (acc ++ ms) = true →
    List.foldl insertUpd acc ms = acc ++ ms := by
  intro ms
  induction ms with
  | nil => intro acc _; simp
  | cons m rest ih =>
    intro acc hd
    have hnodup := (keysDistinct_iff_nodup _).mp hd
    simp only [List.map_append, List.map_cons] at hnodup
    have hnin : m.1 ∉ acc.map Prod.fst := by
      intro hmem
      rw [List.nodup_append] at hnodup
      exact hnodup.2.2 hmem (by simp)
    have hany : acc.any (fun p => p.1 == m.1) = false := by
      cases hb : acc.any (fun p => p.1 == m.1)
      · rfl
      · obtain ⟨p, hp, hpk⟩ := List.any_eq_true.mp hb
        simp only [beq_iff_eq] at hpk
        exact absurd (List.mem_map.mpr ⟨p, hp, hpk⟩) hnin
    simp only [List.foldl_cons]
    have hstep : insertUpd acc m = acc ++ [m] := by
      simp [insertUpd, hany]
    rw [hstep, ih (acc ++ [m]) (by simpa using hd)]
    simp

theorem dictify_distinct (ms : List (String × Json))
    (h : keysDistinct ms = true) : dictify ms = ms := by
  have := dictify_aux ms [] (by simpa using h)
  simpa [dictify] using this

/-! ### Bridges for the round-trip induction -/

theorem wf_of_mem_list {x : Json} : ∀ {xs : List Json}, x ∈ xs →
    wfList xs = true → wfJson x = true := by
  intro xs
  induction xs with
  | nil => intro h; cases h
  | cons y ys ih =>
    intro hmem hwf
    simp only [wfList, Bool.and_eq_true] at hwf
    rcases List.mem_cons.mp hmem with rfl | hmem'
    · exact hwf.1
    · exact ih hmem' hwf.2

theorem wf_of_mem_entries {kv : String × Json} :
    ∀ {kvs : List (String × Json)}, kv ∈ kvs →
      wfEntries kvs = true → wfJson kv.2 = true := by
  intro kvs
  induction kvs with
  | nil => intro h; cases h
  | cons p ps ih =>
    intro hmem hwf
    simp only [wfEntries, Bool.and_eq_true] at hwf
    rcases List.mem_cons.mp hmem with rfl | hmem'
    · exact hwf.1
    · exact ih hmem' hwf.2

theorem serializableList_of_forall : ∀ xs : List Json,
    (∀ x ∈ xs, serializableJson x = true) → serializableList xs = true := by
  intro xs
  induction xs with
  | nil => intro _; rfl
  | cons y ys ih =>
    intro h
    simp only [serializableList, Bool.and_eq_true]
    exact ⟨h y (by simp), ih (fun z hz => h z (by simp [hz]))⟩

theorem serializableEntries_of_forall : ∀ kvs : List (String × Json),
    (∀ kv ∈ kvs, serializableJson kv.2 = true) → serializableEntries kvs = true := by
  intro kvs
  induction kvs with
  | nil => intro _; rfl
  | cons p ps ih =>
    intro h
    simp only [serializableEntries, Bool.and_eq_true]
    exact ⟨h p (by simp), ih (fun z hz => h z (by simp [hz]))⟩

theorem wf_serializable_aux : ∀ n : Nat, ∀ j : Json, jsize j ≤ n →
    wfJson j = true → serializableJson j = true := by
  intro n
  induction n with
  | zero =>
    intro j hj
    have := jsize_pos j
    omega
  | succ n ih =>
    intro j hj hwf
    cases j with
    | null => rfl
    | bool b => rfl
    | num m => rfl
    | str s => rfl
    | pyObj => exact hwf
    | arr xs =>
      show serializableList xs = true
      refine serializableList_of_forall xs (fun x hx => ?_)
      refine ih x ?_ (wf_of_mem_list hx hwf)
      have h1 := jsize_le_of_mem_list hx
      simp only [jsize] at hj
      omega
    | obj kvs =>
      show serializableEntries kvs = true
      simp only [wfJson, Bool.and_eq_true] at hwf
      refine serializableEntries_of_forall kvs (fun kv hkv => ?_)
      refine ih kv.2 ?_ (wf_of_mem_entries hkv hwf.2)
      have h1 := jsize_le_of_mem_entries hkv
      simp only [jsize] at hj
      omega

theorem wf_dump_flag (ind : Nat) (j : Json) (h : wfJson j = true) :
    (dumpVal ind j).2 = true :=
  (dump_flag ind j).trans (wf_serializable_aux (jsize j) j (Nat.le_refl _) h)

theorem parseVal_lbrack_ne (f : Nat) (l r : List Char) (c : Char)
    (hs : skipWs l = c :: r) (hne : ¬ c = ']') :
    parseVal (f + 1) ('[' :: l)
      = (parseElems f (c :: r)).map (fun p => (Json.arr p.1, p.2)) := by
  rw [parseVal_lbrack, hs]
  split
  · rename_i r2 heq
    injection heq with h1 h2
    exact absurd h1 hne
  · rfl

theorem parseVal_lbrace_ne (f : Nat) (l r : List Char) (c : Char)
    (hs : skipWs l = c :: r) (hne : ¬ c = '\x7d') :
    parseVal (f + 1) ('\x7b' :: l)
      = (parseMembers f (c :: r)).map (fun p => (Json.obj (dictify p.1), p.2)) := by
  rw [parseVal_lbrace, hs]
  split
  · rename_i r2 heq
    injection heq with h1 h2
    exact absurd h1 hne
  · rfl

theorem elemsEnc_cons_ex (ind : Nat) (x : Json) (xs : List Json) :
    ∃ q, elemsEnc ind (x :: xs) = (dumpVal ind x).1 ++ q := by
  cases xs with
  | nil => exact ⟨[], by simp [elemsEnc]⟩
  | cons y ys => exact ⟨_, rfl⟩

theorem membersEnc_cons_ex (ind : Nat) (kv : String × Json)
    (kvs : List (String × Json)) :
    ∃ q, membersEnc ind (kv :: kvs) = '"' :: q := by
  obtain ⟨k, v⟩ := kv
  cases kvs with
  | nil => exact ⟨_, rfl⟩
  | cons z zs => exact ⟨_, rfl⟩

theorem canonEntries_keys : ∀ l : List (String × Json),
    (canonEntries l).map Prod.fst = l.map Prod.fst := by
  intro l
  induction l with
  | nil => rfl
  | cons kv rest ih =>
    obtain ⟨k, v⟩ := kv
    simp [canonEntries, ih]

theorem keysDistinct_canonEntries (l : List (String × Json)) :
    keysDistinct (canonEntries l) = keysDistinct l := by
  have h : keysDistinct (canonEntries l) = true ↔ keysDistinct l = true := by
    rw [keysDistinct_iff_nodup, keysDistinct_iff_nodup, canonEntries_keys]
  cases hc : keysDistinct (canonEntries l) <;> cases hl : keysDistinct l <;> simp_all

/-! ### The serializer/parser round trip -/

theorem parseVal_dump_round : ∀ n : Nat, ∀ d : Json, jsize d ≤ n →
    wfJson d = true →
    ∀ (f ind : Nat) (rest : List Char), jsize d ≤ f → noDigitStart rest = true →
      parseVal f ((dumpVal ind d).1 ++ rest) = some (canon d, rest) := by
  intro n
  induction n with
  | zero =>
    intro d hd
    have := jsize_pos d
    omega
  | succ n ih =>
    intro d hdn hwf f ind rest hdf hrest
    have hdpos := jsize_pos d
    cases f with
    | zero => omega
    | succ f' =>
      cases d with
      | null => exact parseVal_null f' rest
      | bool b =>
        cases b
        · exact parseVal_false f' rest
        · exact parseVal_true f' rest
      | num m =>
        cases m with
        | ofNat k =>
          show parseVal (f' + 1) (intChars (Int.ofNat k) ++ rest)
            = some (canon (Json.num (Int.ofNat k)), rest)
          cases hnc : natChars k with
          | nil => exact absurd hnc (natChars_ne_nil k)
          | cons c t =>
            have hcd : c.isDigit = true := natChars_digits k c (by rw [hnc]; simp)
            have hh : intChars (Int.ofNat k) = c :: t := by
              rw [show intChars (Int.ofNat k) = natChars k from rfl, hnc]
            rw [hh, List.cons_append,
              parseVal_num_dispatch f' c (t ++ rest) (Or.inl hcd),
              ← List.cons_append, ← hh,
              parseNum_round (Int.ofNat k) rest hrest]
            rfl
        | negSucc k =>
          show parseVal (f' + 1) (intChars (Int.negSucc k) ++ rest)
            = some (canon (Json.num (Int.negSucc k)), rest)
          have hh2 : intChars (Int.negSucc k) = '-' :: natChars (k + 1) := rfl
          rw [hh2, List.cons_append,
            parseVal_num_dispatch f' '-' (natChars (k + 1) ++ rest) (Or.inr rfl),
            ← List.cons_append, ← hh2,
            parseNum_round (Int.negSucc k) rest hrest]
          rfl
      | str s =>
        show parseVal (f' + 1) (('"' :: (escChars s.data ++ ['"'])) ++ rest)
          = some (canon (Json.str s), rest)
        simp only [List.cons_append, List.append_assoc, List.singleton_append,
          List.nil_append]
        rw [parseVal_quote f' (escChars s.data ++ '"' :: rest), parseKey s rest]
        rfl
      | arr xs =>
        cases xs with
        | nil =>
          show parseVal (f' + 1) ('[' :: ']' :: rest) = some (canon (Json.arr []), rest)
          rw [parseVal_lbrack f' (']' :: rest), skipWs_not_ws ']' rest (by decide)]
          rfl
        | cons x xs =>
          have hwl : wfList (x :: xs) = true := hwf
          have hwx : wfJson x = true := wf_of_mem_list (by simp) hwl
          have hall : ∀ y ∈ x :: xs, (dumpVal (ind + 1) y).2 = true :=
            fun y hy => wf_dump_flag (ind + 1) y (wf_of_mem_list hy hwl)
          have hsh := dumpArr_shape ind x xs hall
          have hd1 : (dumpVal ind (Json.arr (x :: xs))).1
              = '[' :: '\n' :: (spc (ind + 1) ++ elemsEnc (ind + 1) (x :: xs)
                  ++ '\n' :: (spc ind ++ [']'])) := by rw [hsh]
          rw [hd1]
          simp only [List.cons_append, List.append_assoc, List.singleton_append,
            List.nil_append]
          obtain ⟨c, z, hz, hwc, hrb, hcb⟩ := dump_head (ind + 1) x hwx
          obtain ⟨q, hq⟩ := elemsEnc_cons_ex (ind + 1) x xs
          have hskip : skipWs ('\n' :: (spc (ind + 1)
                ++ (elemsEnc (ind + 1) (x :: xs) ++ '\n' :: (spc ind ++ ']' :: rest))))
              = c :: (z ++ (q ++ '\n' :: (spc ind ++ ']' :: rest))) := by
            rw [skipWs_indent (ind + 1) _, skipWs_elemsEnc (ind + 1) x xs hwx _, hq, hz]
            simp [List.cons_append, List.append_assoc]
          rw [parseVal_lbrack_ne f' _ _ c hskip hrb]
          have hback : c :: (z ++ (q ++ '\n' :: (spc ind ++ ']' :: rest)))
              = elemsEnc (ind + 1) (x :: xs) ++ '\n' :: (spc ind ++ ']' :: rest) := by
            rw [hq, hz]
            simp [List.cons_append, List.append_assoc]
          rw [hback]
          have htail : skipWs ('\n' :: (spc ind ++ ']' :: rest)) = ']' :: rest :=
            (skipWs_indent ind _).trans (skipWs_not_ws ']' rest (by decide))
          have hjl : jsizeList (x :: xs) ≤ f' := by
            simp only [jsize] at hdf; omega
          have hjn : jsizeList (x :: xs) ≤ n := by
            simp only [jsize] at hdn; omega
          have hmem : ∀ y ∈ x :: xs, wfJson y = true ∧
              ∀ f2 i2 r2, jsize y ≤ f2 → noDigitStart r2 = true →
                parseVal f2 ((dumpVal i2 y).1 ++ r2) = some (canon y, r2) := by
            intro y hy
            have hw := wf_of_mem_list hy hwl
            exact ⟨hw, fun f2 i2 r2 hf2 hr2 =>
              ih y (le_trans (jsize_le_of_mem_list hy) hjn) hw f2 i2 r2 hf2 hr2⟩
          rw [parseElems_round (x :: xs) (by simp) hmem f' (ind + 1)
            ('\n' :: (spc ind ++ ']' :: rest)) rest hjl htail]
          rfl
      | obj kvs =>
        have hwfo : keysDistinct kvs = true ∧ wfEntries kvs = true := by
          simpa only [wfJson, Bool.and_eq_true] using hwf
        obtain ⟨hkd, hwe⟩ := hwfo
        show parseVal (f' + 1)
          ((dumpObjAssemble ind (sortEntries (dumpEntries (ind + 1) kvs))).1 ++ rest)
          = some (canon (Json.obj kvs), rest)
        rw [sortEntries_dumpEntries (ind + 1) kvs]
        cases hs : sortEntries kvs with
        | nil =>
          have hkvs : kvs = [] := by
            have hp := sortEntries_perm kvs
            rw [hs] at hp
            exact hp.symm.eq_nil
          subst hkvs
          show parseVal (f' + 1) ('\x7b' :: '\x7d' :: rest)
            = some (canon (Json.obj []), rest)
          rw [parseVal_lbrace f' ('\x7d' :: rest), skipWs_not_ws '\x7d' rest (by decide)]
          rfl
        | cons skv skvs =>
          have hallwf : ∀ p ∈ skv :: skvs, wfJson p.2 = true := by
            intro p hp
            have hp2 : p ∈ sortEntries kvs := by rw [hs]; exact hp
            exact wf_of_mem_entries ((sortEntries_perm kvs).subset hp2) hwe
          have hflag : ∀ p ∈ skv :: skvs, (dumpVal (ind + 1) p.2).2 = true :=
            fun p hp => wf_dump_flag (ind + 1) p.2 (hallwf p hp)
          have hsh := dumpObj_shape_sorted ind skv skvs hflag
          have hd1 : (dumpObjAssemble ind (dumpEntries (ind + 1) (skv :: skvs))).1
              = '\x7b' :: '\n' :: (spc (ind + 1) ++ membersEnc (ind + 1) (skv :: skvs)
                  ++ '\n' :: (spc ind ++ ['\x7d'])) := by rw [hsh]
          rw [hd1]
          simp only [List.cons_append, List.append_assoc, List.singleton_append,
            List.nil_append]
          obtain ⟨q, hq⟩ := membersEnc_cons_ex (ind + 1) skv skvs
          have hskip : skipWs ('\n' :: (spc (ind + 1)
                ++ (membersEnc (ind + 1) (skv :: skvs)
                  ++ '\n' :: (spc ind ++ '\x7d' :: rest))))
              = '"' :: (q ++ '\n' :: (spc ind ++ '\x7d' :: rest)) := by
            rw [skipWs_indent (ind + 1) _, skipWs_membersEnc (ind + 1) skv skvs _, hq]
            simp [List.cons_append]
          rw [parseVal_lbrace_ne f' _ _ '"' hskip (by decide)]
          have hback : '"' :: (q ++ '\n' :: (spc ind ++ '\x7d' :: rest))
              = membersEnc (ind + 1) (skv :: skvs)
                  ++ '\n' :: (spc ind ++ '\x7d' :: rest) := by
            rw [hq]
            simp [List.cons_append]
          rw [hback]
          have htail : skipWs ('\n' :: (spc ind ++ '\x7d' :: rest)) = '\x7d' :: rest :=
            (skipWs_indent ind _).trans (skipWs_not_ws '\x7d' rest (by decide))
          have hsz : jsizeEntries (skv :: skvs) = jsizeEntries kvs := by
            rw [← hs]
            exact jsizeEntries_perm (sortEntries_perm kvs)
          have hfu : jsizeEntries (skv :: skvs) ≤ f' := by
            simp only [jsize] at hdf; omega
          have hmem : ∀ kv ∈ skv :: skvs, wfJson kv.2 = true ∧
              ∀ f2 i2 r2, jsize kv.2 ≤ f2 → noDigitStart r2 = true →
                parseVal f2 ((dumpVal i2 kv.2).1 ++ r2) = some (canon kv.2, r2) := by
            intro kv hkv
            have hw := hallwf kv hkv
            refine ⟨hw, fun f2 i2 r2 hf2 hr2 => ih kv.2 ?_ hw f2 i2 r2 hf2 hr2⟩
            have h1 : jsize kv.2 ≤ jsizeEntries (skv :: skvs) :=
              jsize_le_of_mem_entries hkv
            simp only [jsize] at hdn
            omega
          rw [parseMembers_round (skv :: skvs) (by simp) hmem f' (ind + 1)
            ('\n' :: (spc ind ++ '\x7d' :: rest)) rest hfu htail]
          simp only [Option.map_some']
          have hmap : (skv :: skvs).map (fun kv => (kv.1, canon kv.2))
              = sortEntries (canonEntries kvs) := by
            rw [← canonEntries_eq_map, ← hs, ← sortEntries_canonEntries]
          have hdict : dictify (sortEntries (canonEntries kvs))
              = sortEntries (canonEntries kvs) := by
            apply dictify_distinct
            rw [keysDistinct_perm (sortEntries_perm (canonEntries kvs)),
              keysDistinct_canonEntries]
            exact hkd
          rw [hmap, hdict]
          rfl
      | pyObj => simp [wfJson] at hwf

/-! ### Fuel bound: the serialization is at least as long as the node count -/

theorem qstr_len (k : String) : 2 ≤ (qstr k).length := by
  simp only [qstr, List.length_cons, List.length_append]
  omega

theorem elemsEnc_len_of (ind : Nat) : ∀ xs : List Json,
    (∀ x ∈ xs, jsize x ≤ ((dumpVal ind x).1).length) →
    jsizeList xs ≤ (elemsEnc ind xs).length + 1 := by
  intro xs
  induction xs with
  | nil => intro _; simp [jsizeList, elemsEnc]
  | cons x ys ih =>
    intro h
    have hx := h x (by simp)
    cases ys with
    | nil =>
      show jsizeList [x] ≤ ((dumpVal ind x).1).length + 1
      simp only [jsizeList]
      omega
    | cons y zs =>
      have hr := ih (fun z hz => h z (by simp [hz]))
      show jsizeList (x :: y :: zs)
        ≤ ((dumpVal ind x).1
            ++ ',' :: '\n' :: (spc ind ++ elemsEnc ind (y :: zs))).length + 1
      simp only [jsizeList, List.length_append, List.length_cons] at *
      omega

theorem membersEnc_len_of (ind : Nat) : ∀ kvs : List (String × Json),
    (∀ kv ∈ kvs, jsize kv.2 ≤ ((dumpVal ind kv.2).1).length) →
    jsizeEntries kvs ≤ (membersEnc ind kvs).length + 1 := by
  intro kvs
  induction kvs with
  | nil => intro _; simp [jsizeEntries, membersEnc]
  | cons kv ys ih =>
    intro h
    obtain ⟨k, v⟩ := kv
    have hv := h (k, v) (by simp)
    have hq := qstr_len k
    cases ys with
    | nil =>
      show jsizeEntries [(k, v)]
        ≤ (qstr k ++ ':' :: ' ' :: (dumpVal ind v).1).length + 1
      simp only [jsizeEntries, List.length_append, List.length_cons] at *
      omega
    | cons z zs =>
      have hr := ih (fun p hp => h p (by simp [hp]))
      show jsizeEntries ((k, v) :: z :: zs)
        ≤ (qstr k ++ ':' :: ' ' ::
            ((dumpVal ind v).1
              ++ ',' :: '\n' :: (spc ind ++ membersEnc ind (z :: zs)))).length + 1
      simp only [jsizeEntries, List.length_append, List.length_cons] at *
      omega

theorem jsize_le_dump_len : ∀ n : Nat, ∀ j : Json, jsize j ≤ n →
    wfJson j = true → ∀ ind, jsize j ≤ ((dumpVal ind j).1).length := by
  intro n
  induction n with
  | zero =>
    intro j hj
    have := jsize_pos j
    omega
  | succ n ih =>
    intro j hj hwf ind
    cases j with
    | null => exact show jsize Json.null ≤ ("null".data).length by decide
    | bool b =>
      cases b
      · exact show jsize (Json.bool false) ≤ ("false".data).length by decide
      · exact show jsize (Json.bool true) ≤ ("true".data).length by decide
    | num m =>
      cases m with
      | ofNat k =>
        show jsize (Json.num (Int.ofNat k)) ≤ (natChars k).length
        simp only [jsize]
        have := List.length_pos.mpr (natChars_ne_nil k)
        omega
      | negSucc k =>
        show jsize (Json.num (Int.negSucc k)) ≤ ('-' :: natChars (k + 1)).length
        simp only [jsize, List.length_cons]
        omega
    | str s =>
      have := qstr_len s
      show jsize (Json.str s) ≤ (qstr s).length
      simp only [jsize]
      omega
    | arr xs =>
      cases xs with
      | nil => exact show jsize (Json.arr []) ≤ ("[]".data).length by decide
      | cons x xs =>
        have hwl : wfList (x :: xs) = true := hwf
        have hall : ∀ y ∈ x :: xs, (dumpVal (ind + 1) y).2 = true :=
          fun y hy => wf_dump_flag (ind + 1) y (wf_of_mem_list hy hwl)
        have hd1 : (dumpVal ind (Json.arr (x :: xs))).1
            = '[' :: '\n' :: (spc (ind + 1) ++ elemsEnc (ind + 1) (x :: xs)
                ++ '\n' :: (spc ind ++ [']'])) := by rw [dumpArr_shape ind x xs hall]
        have hel := elemsEnc_len_of (ind + 1) (x :: xs) (fun y hy => by
          refine ih y ?_ (wf_of_mem_list hy hwl) (ind + 1)
          have h1 := jsize_le_of_mem_list hy
          simp only [jsize] at hj
          omega)
        rw [hd1]
        simp only [jsize, List.length_cons, List.length_append] at *
        omega
    | obj kvs =>
      have hwfo : keysDistinct kvs = true ∧ wfEntries kvs = true := by
        simpa only [wfJson, Bool.and_eq_true] using hwf
      obtain ⟨hkd, hwe⟩ := hwfo
      show jsize (Json.obj kvs)
        ≤ ((dumpObjAssemble ind (sortEntries (dumpEntries (ind + 1) kvs))).1).length
      rw [sortEntries_dumpEntries (ind + 1) kvs]
      cases hs : sortEntries kvs with
      | nil =>
        have hkvs : kvs = [] := by
          have hp := sortEntries_perm kvs
          rw [hs] at hp
          exact hp.symm.eq_nil
        subst hkvs
        exact show jsize (Json.obj []) ≤ ("\x7b\x7d".data).length by decide
      | cons skv skvs =>
        have hallwf : ∀ p ∈ skv :: skvs, wfJson p.2 = true := by
          intro p hp
          have hp2 : p ∈ sortEntries kvs := by rw [hs]; exact hp
          exact wf_of_mem_entries ((sortEntries_perm kvs).subset hp2) hwe
        have hflag : ∀ p ∈ skv :: skvs, (dumpVal (ind + 1) p.2).2 = true :=
          fun p hp => wf_dump_flag (ind + 1) p.2 (hallwf p hp)
        have hd1 : (dumpObjAssemble ind (dumpEntries (ind + 1) (skv :: skvs))).1
            = '\x7b' :: '\n' :: (spc (ind + 1) ++ membersEnc (ind + 1) (skv :: skvs)
                ++ '\n' :: (spc ind ++ ['\x7d'])) := by
          rw [dumpObj_shape_sorted ind skv skvs hflag]
        have hsz : jsizeEntries (skv :: skvs) = jsizeEntries kvs := by
          rw [← hs]
          exact jsizeEntries_perm (sortEntries_perm kvs)
        have hel := membersEnc_len_of (ind + 1) (skv :: skvs) (fun kv hkv => by
          refine ih kv.2 ?_ (hallwf kv hkv) (ind + 1)
          have h1 : jsize kv.2 ≤ jsizeEntries (skv :: skvs) :=
            jsize_le_of_mem_entries hkv
          simp only [jsize] at hj
          omega)
        rw [hd1]
        simp only [jsize, List.length_cons, List.length_append] at *
        omega
    | pyObj => simp [wfJson] at hwf

/-! ### json.loads of the saved file -/

theorem parseJson_serialize (d : Json) (hwf : wfJson d = true) :
    parseJson (serialize d) = some (canon d) := by
  have hdata : (serialize d).data = (dumpVal 0 d).1 := rfl
  have hlen : jsize d ≤ (serialize d).data.length + 1 := by
    rw [hdata]
    have := jsize_le_dump_len (jsize d) d (Nat.le_refl _) hwf 0
    omega
  have hround := parseVal_dump_round (jsize d) d (Nat.le_refl _) hwf
    ((serialize d).data.length + 1) 0 [] hlen rfl
  rw [List.append_nil] at hround
  have hsw : skipWs (serialize d).data = (dumpVal 0 d).1 := by
    rw [hdata]
    have := skipWs_dump 0 d hwf []
    rwa [List.append_nil] at this
  show (match parseVal ((serialize d).data.length + 1) (skipWs (serialize d).data) with
        | some (v, r) => if (skipWs r).isEmpty then some v else none
        | none => none) = some (canon d)
  rw [hsw, hround]
  rfl

/-! ### Deep equality of the canonical form with the original -/

theorem deepEqualSub_of : ∀ (ms b : List (String × Json)),
    (∀ kv ∈ ms, ∃ v, b.find? (fun p => p.1 == kv.1) = some (kv.1, v)
      ∧ deepEqual kv.2 v = true) →
    deepEqualSub ms b = true := by
  intro ms
  induction ms with
  | nil => intro b _; rfl
  | cons kv rest ih =>
    intro b h
    obtain ⟨k, w⟩ := kv
    obtain ⟨v, hfind, heq⟩ := h (k, w) (by simp)
    show ((match b.find? (fun p => p.1 == k) with
          | some kv => deepEqual w kv.2
          | none => false) && deepEqualSub rest b) = true
    rw [hfind]
    simp only [Bool.and_eq_true]
    exact ⟨heq, ih b (fun p hp => h p (by simp [hp]))⟩

theorem deepEqualList_of : ∀ xs ys : List Json, xs.length = ys.length →
    (∀ i : Nat, ∀ hx : i < xs.length, ∀ hy : i < ys.length,
      deepEqual (xs.get ⟨i, hx⟩) (ys.get ⟨i, hy⟩) = true) →
    deepEqualList xs ys = true := by
  intro xs
  induction xs with
  | nil =>
    intro ys hlen _
    cases ys with
    | nil => rfl
    | cons y ys => simp at hlen
  | cons x xs ih =>
    intro ys hlen h
    cases ys with
    | nil => simp at hlen
    | cons y ys =>
      show (deepEqual x y && deepEqualList xs ys) = true
      simp only [Bool.and_eq_true]
      refine ⟨h 0 (by simp) (by simp), ?_⟩
      refine ih ys (by simpa using hlen) (fun i hx hy => ?_)
      exact h (i + 1) (by simpa using Nat.succ_lt_succ hx)
        (by simpa using Nat.succ_lt_succ hy)

theorem deepEqualList_canon_of : ∀ xs : List Json,
    (∀ x ∈ xs, deepEqual (canon x) x = true) →
    deepEqualList (canonList xs) xs = true := by
  intro xs
  induction xs with
  | nil => intro _; rfl
  | cons x ys ih =>
    intro h
    show (deepEqual (canon x) x && deepEqualList (canonList ys) ys) = true
    simp only [Bool.and_eq_true]
    exact ⟨h x (by simp), ih (fun z hz => h z (by simp [hz]))⟩

theorem deepEqual_canon : ∀ n : Nat, ∀ d : Json, jsize d ≤ n →
    wfJson d = true → deepEqual (canon d) d = true := by
  intro n
  induction n with
  | zero =>
    intro d hd
    have := jsize_pos d
    omega
  | succ n ih =>
    intro d hdn hwf
    cases d with
    | null => rfl
    | bool b => cases b <;> rfl
    | num m => simp [canon, deepEqual]
    | str s => simp [canon, deepEqual]
    | arr xs =>
      show deepEqualList (canonList xs) xs = true
      refine deepEqualList_canon_of xs (fun x hx => ?_)
      refine ih x ?_ (wf_of_mem_list hx hwf)
      have := jsize_le_of_mem_list hx
      simp only [jsize] at hdn
      omega
    | obj kvs =>
      have hwfo : keysDistinct kvs = true ∧ wfEntries kvs = true := by
        simpa only [wfJson, Bool.and_eq_true] using hwf
      obtain ⟨hkd, hwe⟩ := hwfo
      show (((sortEntries (canonEntries kvs)).length == kvs.length)
        && deepEqualSub (sortEntries (canonEntries kvs)) kvs) = true
      simp only [Bool.and_eq_true]
      constructor
      · have h1 : (sortEntries (canonEntries kvs)).length = kvs.length := by
          rw [(sortEntries_perm (canonEntries kvs)).length_eq, canonEntries_eq_map,
            List.length_map]
        simp [h1]
      · refine deepEqualSub_of _ kvs (fun kv hkv => ?_)
        have hkv2 : kv ∈ canonEntries kvs :=
          (sortEntries_perm (canonEntries kvs)).subset hkv
        rw [canonEntries_eq_map] at hkv2
        obtain ⟨p, hp, hpe⟩ := List.mem_map.mp hkv2
        obtain ⟨k, v⟩ := p
        subst hpe
        refine ⟨v, find?_of_mem_distinct k v kvs hkd hp, ?_⟩
        refine ih v ?_ (wf_of_mem_entries hp hwe)
        have := jsize_le_of_mem_entries hp
        simp only [jsize] at hdn
        simp only [] at this
        omega
    | pyObj => simp [wfJson] at hwf

/-- A sample fetched document: nested objects with unsorted keys, an
array, a negative number, an escaped string. -/
def docRT : Json :=
  .obj [("b", .num 2),
        ("a", .arr [.num 1, .str "x\ny", .null, .num (-3)]),
        ("c", .obj [("k2", .bool true), ("k1", .str "v")])]

/-- C5: For every well-formed fetched document (a parsed-JSON value:
serializable, with distinct keys in every object), `save_issue_json`
succeeds and the file content afterwards is a single string `c` that does
not depend on the file's prior content — so two saves of the same
document produce byte-identical output — and re-parsing `c` with
`json.loads` yields a value deep-equal to the original document. -/
theorem save_roundtrip_deterministic (d : Json) (prior1 prior2 : Option String)
    (hwf : wfJson d = true) :
    ∃ c : String,
      fileAfterSave prior1 (save_issue_json true d) = some c ∧
      fileAfterSave prior2 (save_issue_json true d) = some c ∧
      ∃ v : Json, parseJson c = some v ∧ deepEqual v d = true := by
  have hflag : (dumpVal 0 d).2 = true := wf_dump_flag 0 d hwf
  have hsave : save_issue_json true d = SaveOutcome.saved (serialize d) := by
    show (match dumpVal 0 d with
          | (w, true) => SaveOutcome.saved (String.mk w)
          | (w, false) => SaveOutcome.valueError (String.mk w))
        = SaveOutcome.saved (serialize d)
    cases hd : dumpVal 0 d with
    | mk w ok =>
      rw [hd] at hflag
      have hok : ok = true := hflag
      subst hok
      simp only []
      rw [show serialize d = String.mk (dumpVal 0 d).1 from rfl, hd]
  refine ⟨serialize d, ?_, ?_, canon d, parseJson_serialize d hwf,
    deepEqual_canon (jsize d) d (Nat.le_refl _) hwf⟩
  · rw [hsave]
    rfl
  · rw [hsave]
    rfl

/-- C5 at a concrete document, against two different prior file states. -/
theorem save_roundtrip_deterministic_witness :
    wfJson docRT = true ∧
    ∃ c : String,
      fileAfterSave none (save_issue_json true docRT) = some c ∧
      fileAfterSave (some "OLD") (save_issue_json true docRT) = some c ∧
      ∃ v : Json, parseJson c = some v ∧ deepEqual v docRT = true :=
  ⟨by rfl, save_roundtrip_deterministic docRT none (some "OLD") (by rfl)⟩
